import Mathlib

/-!
Verification of the noto-font-matcher repository's range compaction
(`to_ranges` in fetch_noto_fonts.py) and catalog migration
(`migrate` in migrate_fonts_yaml.py) against its specification.

The Python sources are shallowly embedded: pure functions become Lean
functions, Python exceptions become `Except`, Python's insertion-ordered
`dict` used for grouping becomes an insertion-ordered association list.
-/

/-- Models Python `enumerate(xs)` starting at index `n`. -/
def pyEnum {α : Type} (n : Nat) : List α → List (Nat × α)
  | [] => []
  | x :: xs => (n, x) :: pyEnum (n + 1) xs

/-- Models `itertools.groupby(xs, key)`: splits a list into maximal runs of
adjacent elements with equal key (each group is returned in order). -/
def groupByKey {α : Type} (k : α → Int) : List α → List (List α)
  | [] => []
  | [x] => [[x]]
  | x :: y :: xs =>
    match groupByKey k (y :: xs) with
    | [] => [[x]]
    | g :: gs => if k x = k y then (x :: g) :: gs else [x] :: g :: gs

/-- The body of the loop in `to_ranges`: from one `groupby` group of
`(index, codepoint)` pairs, take `(group_list[0], group_list[-1])`. -/
def extractRange (g : List (Nat × Nat)) : Nat × Nat :=
  ((g.headD (0, 0)).2, (g.getLastD (0, 0)).2)

/-- Embeds `to_ranges` from fetch_noto_fonts.py:
`itertools.groupby(enumerate(codepoints), lambda ic: ic[0] - ic[1])`,
emitting `(group_list[0], group_list[-1])` per group. -/
def to_ranges (codepoints : List Nat) : List (Nat × Nat) :=
  (groupByKey (fun ic => (ic.1 : Int) - (ic.2 : Int)) (pyEnum 0 codepoints)).map
    extractRange

/-- Reference recursion: scan a run starting at `s` whose last seen value is
`p`; a gap closes the run. Used to reason about `to_ranges`. -/
def insertRun (s p : Nat) : List Nat → List (Nat × Nat)
  | [] => [(s, p)]
  | y :: ys => if y = p + 1 then insertRun s y ys else (s, p) :: insertRun y y ys

/-- Reference form of the compaction scan. -/
def ranges_of : List Nat → List (Nat × Nat)
  | [] => []
  | x :: xs => insertRun x x xs

/-- The set of integers covered by a list of inclusive ranges. -/
def coveredBy (rs : List (Nat × Nat)) (n : Nat) : Prop :=
  ∃ r ∈ rs, r.1 ≤ n ∧ n ≤ r.2

instance (rs : List (Nat × Nat)) (n : Nat) : Decidable (coveredBy rs n) := by
  unfold coveredBy; infer_instance

/-- The enumeration key used by `to_ranges`. -/
def enumKey (ic : Nat × Nat) : Int := (ic.1 : Int) - (ic.2 : Int)

lemma groupByKey_pair {α : Type} (k : α → Int) (x y : α) (xs : List α) :
    groupByKey k (x :: y :: xs) =
      match groupByKey k (y :: xs) with
      | [] => [[x]]
      | g :: gs => if k x = k y then (x :: g) :: gs else [x] :: g :: gs := by
  rfl

lemma groupByKey_step (n y z : Nat) (zs : List Nat) (t : List (Nat × Nat))
    (gs : List (List (Nat × Nat)))
    (h : groupByKey enumKey (pyEnum (n + 1) (z :: zs)) = ((n + 1, z) :: t) :: gs) :
    groupByKey enumKey (pyEnum n (y :: z :: zs)) =
      if enumKey (n, y) = enumKey (n + 1, z)
      then ((n, y) :: (n + 1, z) :: t) :: gs
      else [(n, y)] :: ((n + 1, z) :: t) :: gs := by
  have h' : groupByKey enumKey ((n + 1, z) :: pyEnum (n + 2) zs) =
      ((n + 1, z) :: t) :: gs := h
  show groupByKey enumKey ((n, y) :: (n + 1, z) :: pyEnum (n + 2) zs) = _
  rw [groupByKey_pair, h']

lemma groupByKey_first (n : Nat) (y : Nat) (xs : List Nat) :
    ∃ t gs, groupByKey enumKey (pyEnum n (y :: xs)) = ((n, y) :: t) :: gs := by
  induction xs generalizing n y with
  | nil => exact ⟨[], [], rfl⟩
  | cons z zs ih =>
    obtain ⟨t, gs, h⟩ := ih (n + 1) z
    have hstep := groupByKey_step n y z zs t gs h
    by_cases hk : enumKey (n, y) = enumKey (n + 1, z)
    · exact ⟨(n + 1, z) :: t, gs, by rw [hstep]; simp [hk]⟩
    · exact ⟨[], ((n + 1, z) :: t) :: gs, by rw [hstep]; simp [hk]⟩

lemma enumKey_eq_iff (n a b : Nat) :
    enumKey (n, a) = enumKey (n + 1, b) ↔ b = a + 1 := by
  unfold enumKey
  constructor
  · intro h; omega
  · intro h; subst h; push_cast; ring

lemma insertRun_shape (xs : List Nat) (p : Nat) :
    ∃ e t, ∀ s, insertRun s p xs = (s, e) :: t := by
  induction xs generalizing p with
  | nil => exact ⟨p, [], fun s => rfl⟩
  | cons y ys ih =>
    by_cases h : y = p + 1
    · obtain ⟨e, t, ht⟩ := ih y
      exact ⟨e, t, fun s => by subst h; simp [insertRun, ht]⟩
    · exact ⟨p, insertRun y y ys, fun s => by simp [insertRun, h]⟩

lemma getLastD_cons_cons {α : Type} (a b : α) (l : List α) (d : α) :
    (a :: b :: l).getLastD d = (b :: l).getLastD d := by
  simp [List.getLastD_cons]

lemma map_extract_groupByKey (xs : List Nat) :
    ∀ n x, (groupByKey enumKey (pyEnum n (x :: xs))).map extractRange =
      insertRun x x xs := by
  induction xs with
  | nil => intro n x; rfl
  | cons y ys ih =>
    intro n x
    obtain ⟨t, gs, hfg⟩ := groupByKey_first (n + 1) y ys
    have ihy := ih (n + 1) y
    rw [hfg] at ihy
    have hstep := groupByKey_step n x y ys t gs hfg
    by_cases hk : y = x + 1
    · -- the new element extends the current run
      have hkey : enumKey (n, x) = enumKey (n + 1, y) := (enumKey_eq_iff n x y).2 hk
      rw [if_pos hkey] at hstep
      rw [hstep]
      obtain ⟨e, t', ht'⟩ := insertRun_shape ys y
      have hyy : insertRun y y ys = (y, e) :: t' := ht' y
      rw [hyy] at ihy
      have hcons : extractRange ((n + 1, y) :: t) :: gs.map extractRange =
          (y, e) :: t' := by simpa using ihy
      have h1 : extractRange ((n + 1, y) :: t) = (y, e) := by
        exact (List.cons.injEq _ _ _ _ ▸ hcons).1
      have h2 : gs.map extractRange = t' := by
        exact (List.cons.injEq _ _ _ _ ▸ hcons).2
      have hE : (((n + 1, y) :: t).getLastD (0, 0)).2 = e :=
        congrArg Prod.snd h1
      have hrx : insertRun x x (y :: ys) = insertRun x y ys := by
        simp [insertRun, hk]
      rw [hrx, ht' x]
      show extractRange ((n, x) :: (n + 1, y) :: t) :: gs.map extractRange =
        (x, e) :: t'
      rw [h2]
      congr 1
      show (x, (((n, x) :: (n + 1, y) :: t).getLastD (0, 0)).2) = (x, e)
      rw [getLastD_cons_cons, hE]
    · -- a gap: the previous run closes at x
      have hkey : ¬ enumKey (n, x) = enumKey (n + 1, y) := by
        intro hc; exact hk ((enumKey_eq_iff n x y).1 hc)
      rw [if_neg hkey] at hstep
      rw [hstep]
      have hrx : insertRun x x (y :: ys) = (x, x) :: insertRun y y ys := by
        simp [insertRun, hk]
      rw [hrx, ← ihy]
      rfl

/-- `to_ranges` agrees with the reference scan on every input list. -/
theorem to_ranges_eq_ranges_of (L : List Nat) : to_ranges L = ranges_of L := by
  cases L with
  | nil => rfl
  | cons x xs =>
    show (groupByKey enumKey (pyEnum 0 (x :: xs))).map extractRange = _
    exact map_extract_groupByKey xs 0 x

lemma covered_insertRun (xs : List Nat) :
    ∀ s p n, s ≤ p →
      (coveredBy (insertRun s p xs) n ↔ (s ≤ n ∧ n ≤ p) ∨ n ∈ xs) := by
  induction xs with
  | nil =>
    intro s p n _
    simp [insertRun, coveredBy]
  | cons y ys ih =>
    intro s p n hsp
    by_cases hy : y = p + 1
    · rw [insertRun, if_pos hy]
      rw [ih s y n (by omega)]
      subst hy
      simp only [List.mem_cons]
      constructor
      · rintro (⟨h1, h2⟩ | h)
        · by_cases hnp : n ≤ p
          · exact Or.inl ⟨h1, hnp⟩
          · exact Or.inr (Or.inl (by omega))
        · exact Or.inr (Or.inr h)
      · rintro (⟨h1, h2⟩ | h | h)
        · exact Or.inl ⟨h1, by omega⟩
        · exact Or.inl ⟨by omega, by omega⟩
        · exact Or.inr h
    · rw [insertRun, if_neg hy]
      have hys := ih y y n (le_refl y)
      constructor
      · rintro ⟨r, hr, hle⟩
        rcases List.mem_cons.1 hr with h | h
        · subst h; exact Or.inl hle
        · have : coveredBy (insertRun y y ys) n := ⟨r, h, hle⟩
          rcases hys.1 this with ⟨h1, h2⟩ | h3
          · exact Or.inr (List.mem_cons.2 (Or.inl (by omega)))
          · exact Or.inr (List.mem_cons.2 (Or.inr h3))
      · rintro (⟨h1, h2⟩ | h)
        · exact ⟨(s, p), List.mem_cons.2 (Or.inl rfl), h1, h2⟩
        · rcases List.mem_cons.1 h with h | h
          · subst h
            obtain ⟨r, hr, hle⟩ := hys.2 (Or.inl ⟨le_refl n, le_refl n⟩)
            exact ⟨r, List.mem_cons.2 (Or.inr hr), hle⟩
          · obtain ⟨r, hr, hle⟩ := hys.2 (Or.inr h)
            exact ⟨r, List.mem_cons.2 (Or.inr hr), hle⟩

/-- The covered set of `ranges_of L` is exactly the element set of `L`. -/
lemma covered_ranges_of (L : List Nat) (n : Nat) :
    coveredBy (ranges_of L) n ↔ n ∈ L := by
  cases L with
  | nil => simp [ranges_of, coveredBy]
  | cons x xs =>
    rw [ranges_of, covered_insertRun xs x x n (le_refl x)]
    simp only [List.mem_cons]
    constructor
    · rintro (⟨h1, h2⟩ | h)
      · exact Or.inl (by omega)
      · exact Or.inr h
    · rintro (h | h)
      · exact Or.inl ⟨by omega, by omega⟩
      · exact Or.inr h

lemma insertRun_spec (xs : List Nat) :
    ∀ s p, s ≤ p → List.Chain' (· < ·) (p :: xs) →
      (∀ r ∈ insertRun s p xs, r.1 ≤ r.2) ∧
      List.Chain' (fun a b : Nat × Nat => a.2 + 1 < b.1) (insertRun s p xs) ∧
      (∃ e t, insertRun s p xs = (s, e) :: t) := by
  induction xs with
  | nil =>
    intro s p hsp _
    refine ⟨?_, ?_, p, [], rfl⟩
    · intro r hr
      simp [insertRun] at hr
      subst hr; exact hsp
    · simp [insertRun]
  | cons y ys ih =>
    intro s p hsp hch
    have hpy : p < y := (List.chain'_cons.1 hch).1
    have hch' : List.Chain' (· < ·) (y :: ys) := (List.chain'_cons.1 hch).2
    by_cases hy : y = p + 1
    · rw [insertRun, if_pos hy]
      exact ih s y (by omega) hch'
    · rw [insertRun, if_neg hy]
      obtain ⟨hval, hchain, e, t, het⟩ := ih y y (le_refl y) hch'
      refine ⟨?_, ?_, p, insertRun y y ys, rfl⟩
      · intro r hr
        rcases List.mem_cons.1 hr with h | h
        · subst h; exact hsp
        · exact hval r h
      · rw [het]
        rw [het] at hchain
        exact List.chain'_cons.2 ⟨by omega, hchain⟩

/-- Canonical-form invariants of `ranges_of` on strictly increasing input. -/
lemma ranges_of_canonical (L : List Nat) (hL : List.Chain' (· < ·) L) :
    (∀ r ∈ ranges_of L, r.1 ≤ r.2) ∧
    List.Chain' (fun a b : Nat × Nat => a.2 + 1 < b.1) (ranges_of L) := by
  cases L with
  | nil => exact ⟨by simp [ranges_of], by simp [ranges_of]⟩
  | cons x xs =>
    obtain ⟨h1, h2, _⟩ := insertRun_spec xs x x (le_refl x) hL
    exact ⟨h1, h2⟩

lemma gap_chain_head (R : List (Nat × Nat)) :
    ∀ s e, (∀ r ∈ R, r.1 ≤ r.2) →
      List.Chain' (fun a b : Nat × Nat => a.2 + 1 < b.1) ((s, e) :: R) →
      ∀ r ∈ R, e + 1 < r.1 := by
  induction R with
  | nil => intro s e _ _ r hr; cases hr
  | cons q R' ih =>
    intro s e hval hch r hr
    have h1 : e + 1 < q.1 := (List.chain'_cons.1 hch).1
    rcases List.mem_cons.1 hr with h | h
    · subst h; exact h1
    · have hq : q.1 ≤ q.2 := hval q (List.mem_cons.2 (Or.inl rfl))
      have := ih q.1 q.2 (fun r hr => hval r (List.mem_cons.2 (Or.inr hr)))
        (by
          have := (List.chain'_cons.1 hch).2
          rwa [show q = (q.1, q.2) from rfl] at this) r h
      omega

/-- Any list of ranges covering exactly the same integers as a canonical
(valid, gap-chained) list has at least as many ranges. -/
lemma min_ranges_aux (R : List (Nat × Nat)) :
    ∀ Q : List (Nat × Nat), (∀ r ∈ R, r.1 ≤ r.2) →
      List.Chain' (fun a b : Nat × Nat => a.2 + 1 < b.1) R →
      (∀ n, coveredBy R n → coveredBy Q n) →
      (∀ n, coveredBy Q n → coveredBy R n) →
      R.length ≤ Q.length := by
  induction R with
  | nil => intro Q _ _ _ _; exact Nat.zero_le _
  | cons r0 R' ih =>
    intro Q hval hch hRQ hQR
    obtain ⟨s, e⟩ := r0
    have hse : s ≤ e := hval (s, e) (List.mem_cons.2 (Or.inl rfl))
    have hgap := gap_chain_head R' s e
      (fun r hr => hval r (List.mem_cons.2 (Or.inr hr))) hch
    -- e + 1 is not covered by R, hence not by Q
    have hnotR : ¬ coveredBy ((s, e) :: R') (e + 1) := by
      rintro ⟨r, hr, hle1, hle2⟩
      rcases List.mem_cons.1 hr with h | h
      · rw [h] at hle2; omega
      · have := hgap r h; omega
    have hnotQ : ¬ coveredBy Q (e + 1) := fun h => hnotR (hQR _ h)
    -- some range of Q covers s, and it must end at or before e
    obtain ⟨q, hq, hq1, hq2⟩ := hRQ s ⟨(s, e), List.mem_cons.2 (Or.inl rfl), le_refl s, hse⟩
    have hqe : q.2 ≤ e := by
      by_contra hgt
      exact hnotQ ⟨q, hq, by omega, by omega⟩
    -- drop the ranges of Q that end at or before e
    set Q' := Q.filter (fun r => decide (e < r.2)) with hQ'
    have hlen : Q'.length < Q.length := by
      rw [hQ']
      exact List.length_filter_lt_length_iff_exists.2 ⟨q, hq, by simp; omega⟩
    have hmemQ' : ∀ r, r ∈ Q' → r ∈ Q ∧ e < r.2 := by
      intro r hr
      have := List.mem_filter.1 hr
      exact ⟨this.1, by simpa using this.2⟩
    -- every surviving range of Q' starts beyond e + 1
    have hstart : ∀ r, r ∈ Q' → r.1 ≤ r.2 → e + 1 < r.1 := by
      intro r hr hvr
      obtain ⟨hrQ, hre⟩ := hmemQ' r hr
      by_contra hle
      exact hnotQ ⟨r, hrQ, by omega, by omega⟩
    have hch' : List.Chain' (fun a b : Nat × Nat => a.2 + 1 < b.1) R' :=
      (List.chain'_cons'.1 hch).2
    have hRQ' : ∀ n, coveredBy R' n → coveredBy Q' n := by
      rintro n ⟨r, hr, h1, h2⟩
      have hne : e + 1 < r.1 := hgap r hr
      obtain ⟨q2, hq2Q, hq21, hq22⟩ :=
        hRQ n ⟨r, List.mem_cons.2 (Or.inr hr), h1, h2⟩
      refine ⟨q2, ?_, hq21, hq22⟩
      rw [hQ']
      exact List.mem_filter.2 ⟨hq2Q, by simp; omega⟩
    have hQR' : ∀ n, coveredBy Q' n → coveredBy R' n := by
      rintro n ⟨q2, hq2Q', hq21, hq22⟩
      have hst : e + 1 < q2.1 := hstart q2 hq2Q' (le_trans hq21 hq22)
      have hcov : coveredBy ((s, e) :: R') n :=
        hQR n ⟨q2, (hmemQ' q2 hq2Q').1, hq21, hq22⟩
      obtain ⟨r, hr, h1, h2⟩ := hcov
      rcases List.mem_cons.1 hr with h | h
      · rw [h] at h2; omega
      · exact ⟨r, h, h1, h2⟩
    have := ih Q' (fun r hr => hval r (List.mem_cons.2 (Or.inr hr))) hch' hRQ' hQR'
    simpa using Nat.lt_of_le_of_lt this hlen

/-- Models Python first-occurrence de-duplication (`dict.fromkeys`, or
building a `set` as far as membership is concerned). -/
def pyDedup {α : Type} [DecidableEq α] : List α → List α
  | [] => []
  | x :: xs => x :: (pyDedup xs).filter (fun y => decide (y ≠ x))

lemma mem_pyDedup {α : Type} [DecidableEq α] (l : List α) (a : α) :
    a ∈ pyDedup l ↔ a ∈ l := by
  induction l with
  | nil => simp [pyDedup]
  | cons x xs ih =>
    simp only [pyDedup, List.mem_cons, List.mem_filter, ih]
    by_cases hax : a = x
    · subst hax; simp
    · simp [hax]

lemma nodup_pyDedup {α : Type} [DecidableEq α] (l : List α) :
    (pyDedup l).Nodup := by
  induction l with
  | nil => simp [pyDedup]
  | cons x xs ih =>
    refine List.Nodup.cons ?_ (List.Nodup.filter _ ih)
    intro hx
    have := (List.mem_filter.1 hx).2
    simp at this

lemma pyDedup_eq_self {α : Type} [DecidableEq α] (l : List α) (h : l.Nodup) :
    pyDedup l = l := by
  induction l with
  | nil => rfl
  | cons x xs ih =>
    have hx : x ∉ xs := (List.nodup_cons.1 h).1
    have htl := ih (List.nodup_cons.1 h).2
    simp only [pyDedup, htl]
    congr 1
    rw [List.filter_eq_self]
    intro a ha
    simp only [decide_eq_true_eq]
    intro hax
    subst hax
    exact hx ha

/-- Models the normalization done by `unicode_ranges`, the caller of
`to_ranges`: `sorted({cp for ...})` — deduplicate and sort ascending. -/
def sortedSet (l : List Nat) : List Nat :=
  (pyDedup l).mergeSort (fun a b => decide (a ≤ b))

lemma sortedSet_congr (L L' : List Nat) (h : ∀ a, a ∈ L ↔ a ∈ L') :
    sortedSet L = sortedSet L' := by
  have hperm : (pyDedup L).Perm (pyDedup L') := by
    rw [List.perm_ext_iff_of_nodup (nodup_pyDedup L) (nodup_pyDedup L')]
    intro a
    rw [mem_pyDedup, mem_pyDedup]
    exact h a
  have hp : (sortedSet L).Perm (sortedSet L') :=
    ((List.mergeSort_perm _ _).trans hperm).trans (List.mergeSort_perm _ _).symm
  refine @List.Perm.eq_of_sorted Nat (fun a b : Nat => a ≤ b) _ _ ?_ ?_ ?_ hp
  · intro a b _ _ h1 h2; omega
  · have := @List.sorted_mergeSort Nat (fun a b : Nat => decide (a ≤ b))
      (fun a b c h1 h2 => by simp at *; omega)
      (fun a b => by simp; omega) (pyDedup L)
    exact this.imp (fun h => by simpa using h)
  · have := @List.sorted_mergeSort Nat (fun a b : Nat => decide (a ≤ b))
      (fun a b c h1 h2 => by simp at *; omega)
      (fun a b => by simp; omega) (pyDedup L')
    exact this.imp (fun h => by simpa using h)

/-- C1: on an ascending duplicate-free enumeration of a finite set of
non-negative integers (as the caller `unicode_ranges` supplies), `to_ranges`
returns ascending inclusive ranges, with no two ranges overlapping or
adjacent, whose covered-integer union is exactly the input set; the empty
input yields `[]` and a singleton `[v]` yields `[(v, v)]`. -/
theorem C1_to_ranges_compaction_correct (L : List Nat)
    (hL : List.Chain' (· < ·) L) :
    (∀ r ∈ to_ranges L, r.1 ≤ r.2) ∧
    List.Chain' (fun a b : Nat × Nat => a.2 + 1 < b.1) (to_ranges L) ∧
    (∀ n, coveredBy (to_ranges L) n ↔ n ∈ L) ∧
    to_ranges [] = [] ∧ (∀ v : Nat, to_ranges [v] = [(v, v)]) := by
  rw [to_ranges_eq_ranges_of]
  obtain ⟨h1, h2⟩ := ranges_of_canonical L hL
  exact ⟨h1, h2, fun n => covered_ranges_of L n, rfl, fun v => rfl⟩

theorem C1_to_ranges_compaction_correct_witness :
    List.Chain' (· < ·) [65, 66, 67, 70] ∧
    ((∀ r ∈ to_ranges [65, 66, 67, 70], r.1 ≤ r.2) ∧
      List.Chain' (fun a b : Nat × Nat => a.2 + 1 < b.1)
        (to_ranges [65, 66, 67, 70]) ∧
      (∀ n, coveredBy (to_ranges [65, 66, 67, 70]) n ↔ n ∈ [65, 66, 67, 70]) ∧
      to_ranges [] = [] ∧ (∀ v : Nat, to_ranges [v] = [(v, v)])) :=
  ⟨by norm_num [List.chain'_cons],
    C1_to_ranges_compaction_correct [65, 66, 67, 70]
      (by norm_num [List.chain'_cons])⟩

/-- C8: compaction is minimal — for input presented as an ascending
duplicate-free enumeration, no list of inclusive ranges with the same
covered-integer union has fewer ranges than `to_ranges`'s result. -/
theorem C8_to_ranges_minimal (L : List Nat) (hL : List.Chain' (· < ·) L)
    (Q : List (Nat × Nat)) (hQ : ∀ n, coveredBy Q n ↔ n ∈ L) :
    (to_ranges L).length ≤ Q.length := by
  rw [to_ranges_eq_ranges_of]
  obtain ⟨h1, h2⟩ := ranges_of_canonical L hL
  refine min_ranges_aux (ranges_of L) Q h1 h2 ?_ ?_
  · intro n hn
    exact (hQ n).2 ((covered_ranges_of L n).1 hn)
  · intro n hn
    exact (covered_ranges_of L n).2 ((hQ n).1 hn)

theorem C8_to_ranges_minimal_witness :
    List.Chain' (· < ·) [65, 66, 67, 70] ∧
    (∀ n, coveredBy [(65, 67), (70, 70)] n ↔ n ∈ [65, 66, 67, 70]) ∧
    (to_ranges [65, 66, 67, 70]).length ≤ [(65, 67), (70, 70)].length := by
  have hcov : ∀ n, coveredBy [(65, 67), (70, 70)] n ↔ n ∈ [65, 66, 67, 70] := by
    intro n
    simp [coveredBy]
    omega
  exact ⟨by norm_num [List.chain'_cons], hcov,
    C8_to_ranges_minimal [65, 66, 67, 70] (by norm_num [List.chain'_cons])
      [(65, 67), (70, 70)] hcov⟩

/-- C9 counterexample: `to_ranges` does NOT normalize unsorted input —
`to_ranges [1, 0]` is `[(1, 1), (0, 0)]`, not the `[(0, 1)]` produced on the
ascending duplicate-free enumeration `[0, 1]`. -/
theorem C9_counterexample_no_normalization :
    to_ranges [1, 0] = [(1, 1), (0, 0)] ∧ to_ranges [0, 1] = [(0, 1)] ∧
    to_ranges [1, 0] ≠ to_ranges [0, 1] := by
  refine ⟨rfl, rfl, ?_⟩
  decide

/-- C9 (amended): `to_ranges` itself performs no sort/dedupe; the
normalization happens in its caller `unicode_ranges` via `sorted({...})`.
The composition with that caller-side normalization is insensitive to input
order and duplicates. -/
theorem C9_caller_normalizes (L L' : List Nat) (h : ∀ a, a ∈ L ↔ a ∈ L') :
    to_ranges (sortedSet L) = to_ranges (sortedSet L') := by
  rw [sortedSet_congr L L' h]

theorem C9_caller_normalizes_witness :
    (∀ a : Nat, a ∈ [1, 0, 1] ↔ a ∈ [0, 1]) ∧
    to_ranges (sortedSet [1, 0, 1]) = to_ranges (sortedSet [0, 1]) := by
  have h : ∀ a : Nat, a ∈ [1, 0, 1] ↔ a ∈ [0, 1] := by
    intro a; simp [List.mem_cons]; omega
  exact ⟨h, C9_caller_normalizes [1, 0, 1] [0, 1] h⟩

/-! ## Legacy range normalizer (migrate_fonts_yaml.py) -/

/-- A YAML-decoded Python value as seen by `_parse_range`: strings, ints,
lists (Python lists and tuples are treated alike by the code's
`isinstance(item, (list, tuple))` test) and anything else, carried with its
Python type name and `repr` text (e.g. a dict). -/
inductive PyVal : Type
  | str (s : String)
  | int (n : Int)
  | list (xs : List PyVal)
  | other (tyName : String) (reprStr : String)

/-- Python `repr` of a value, as used in the error f-strings. -/
def pyRepr : PyVal → String
  | .str s => "'" ++ s ++ "'"
  | .int n => toString n
  | .list xs => "[" ++ String.intercalate ", " (xs.attach.map (fun v => pyRepr v.1)) ++ "]"
  | .other _ r => r
decreasing_by
  simp only [PyVal.list.sizeOf_spec]
  have := List.sizeOf_lt_of_mem v.2
  omega

/-- Python `type(x).__name__` for the values modelled here. -/
def pyTypeName : PyVal → String
  | .str _ => "str"
  | .int _ => "int"
  | .list _ => "list"
  | .other t _ => t

/-- A raised Python exception: `TypeError` or `ValueError` with its message
(the spec's `MalformedRangeError` abstraction covers both). -/
inductive PyErr : Type
  | typeError (msg : String)
  | valueError (msg : String)
deriving DecidableEq, Repr

/-- Python `str.strip` whitespace test (ASCII whitespace: space, tab,
newline, carriage return, vertical tab, form feed). -/
def isPySpace (c : Char) : Bool :=
  c.toNat = 32 || c.toNat = 9 || c.toNat = 10 || c.toNat = 13 ||
    c.toNat = 11 || c.toNat = 12

/-- Python `str.strip()`. -/
def pyStrip (s : List Char) : List Char :=
  ((s.dropWhile isPySpace).reverse.dropWhile isPySpace).reverse

/-- Models `val.upper().startswith("U+")` for ASCII text: the first
character uppercases to `U` (i.e. is `U` or `u`) and the second is `+`. -/
def hasUPrefix : List Char → Bool
  | c1 :: c2 :: _ => (c1 = 'U' || c1 = 'u') && c2 = '+'
  | _ => false

/-- Models `val.replace("..", "-")` (left-to-right, non-overlapping). -/
def replaceDD : List Char → List Char
  | [] => []
  | [c] => [c]
  | c :: c2 :: rest =>
    if c = '.' ∧ c2 = '.' then '-' :: replaceDD rest
    else c :: replaceDD (c2 :: rest)

/-- Value of one hexadecimal digit (`0`-`9`, `a`-`f`, `A`-`F`), else
`none`. -/
def hexDigitVal (c : Char) : Option Nat :=
  if 48 ≤ c.toNat ∧ c.toNat ≤ 57 then some (c.toNat - 48)
  else if 97 ≤ c.toNat ∧ c.toNat ≤ 102 then some (c.toNat - 97 + 10)
  else if 65 ≤ c.toNat ∧ c.toNat ≤ 70 then some (c.toNat - 65 + 10)
  else none

def isHexDigitChar (c : Char) : Bool := (hexDigitVal c).isSome

def hexNatAux (acc : Nat) : List Char → Option Nat
  | [] => some acc
  | c :: cs =>
    match hexDigitVal c with
    | some d => hexNatAux (16 * acc + d) cs
    | none => none

/-- The optional single leading sign accepted by `int(s, 16)`. -/
def pySign : List Char → Int × List Char
  | [] => (1, [])
  | c :: r =>
    if c = '+' ∨ c = '-' then (if c = '-' then -1 else 1, r) else (1, c :: r)

/-- The optional `0x`/`0X` prefix accepted by `int(s, 16)`. -/
def pyHexPrefixDrop : List Char → List Char
  | c0 :: cx :: r =>
    if c0 = '0' ∧ (cx = 'x' ∨ cx = 'X') then r else c0 :: cx :: r
  | r => r

/-- Models Python `int(s, 16)` on the shapes the migrator feeds it:
surrounding whitespace, an optional single sign, an optional `0x`/`0X`
prefix, then one or more hex digits (digit-group underscores are not
modelled; the legacy data contains none). -/
def pythonIntBase16 (s0 : List Char) : Option Int :=
  let s3 := pyHexPrefixDrop (pySign (pyStrip s0)).2
  if s3 = [] then none
  else match hexNatAux 0 s3 with
    | some v => some ((pySign (pyStrip s0)).1 * (v : Int))
    | none => none

/-- Embeds `_parse_codepoint` from migrate_fonts_yaml.py: ints pass
through; strings are stripped, a case-insensitive `U+` prefix is removed,
`..` becomes `-`, and the rest is parsed in base 16 (the code's
`base = 16 if val.lower().startswith("0x") else 16` is constantly 16);
anything else raises `TypeError`. -/
def _parse_codepoint (value : PyVal) : Except PyErr Int :=
  match value with
  | .int n => .ok n
  | .str s =>
    let val0 := pyStrip s.data
    let val1 := if hasUPrefix val0 then val0.drop 2 else val0
    let val2 := replaceDD val1
    match pythonIntBase16 val2 with
    | some n => .ok n
    | none =>
      .error (.valueError ("invalid literal for int() with base 16: '" ++
        String.mk val2 ++ "'"))
  | v => .error (.typeError ("Unsupported codepoint value: " ++ pyRepr v))

/-- `".." in item` for a character list. -/
def containsDD : List Char → Bool
  | [] => false
  | '.' :: '.' :: _ => true
  | _ :: rest => containsDD rest

/-- `item.split("..", 1)`: text before the first `..` and text after it. -/
def splitDD : List Char → List Char × List Char
  | [] => ([], [])
  | '.' :: '.' :: rest => ([], rest)
  | c :: rest =>
    let p := splitDD rest
    (c :: p.1, p.2)

/-- `item.split("-", 1)`: text before the first `-` and text after it. -/
def splitDash : List Char → List Char × List Char
  | [] => ([], [])
  | '-' :: rest => ([], rest)
  | c :: rest =>
    let p := splitDash rest
    (c :: p.1, p.2)

/-- The final line of `_parse_range`:
`(start, end) if start <= end else (end, start)`. -/
def orientPair (s e : Int) : Int × Int :=
  if s ≤ e then (s, e) else (e, s)

/-- Embeds `_parse_range` from migrate_fonts_yaml.py. -/
def _parse_range (item : PyVal) : Except PyErr (Int × Int) :=
  match item with
  | .str s =>
    let cs := s.data
    let parts : List Char × List Char :=
      if containsDD cs then splitDD cs
      else if '-' ∈ cs then splitDash cs
      else (cs, cs)
    match _parse_codepoint (.str (String.mk parts.1)) with
    | .error e => .error e
    | .ok a =>
      match _parse_codepoint (.str (String.mk parts.2)) with
      | .error e => .error e
      | .ok b => .ok (orientPair a b)
  | .list xs =>
    match xs with
    | [v] =>
      match _parse_codepoint v with
      | .error e => .error e
      | .ok a => .ok (orientPair a a)
    | [va, vb] =>
      match _parse_codepoint va with
      | .error e => .error e
      | .ok a =>
        match _parse_codepoint vb with
        | .error e => .error e
        | .ok b => .ok (orientPair a b)
    | _ =>
      .error (.valueError ("Range list must have 1 or 2 elements, got " ++
        pyRepr item))
  | v => .error (.typeError ("Unsupported range type: <class '" ++
      pyTypeName v ++ "'>"))

/-! ### Python comparison order on ints, strings, tuples and lists

Python compares ints by value, strings lexicographically by code point,
and tuples/lists lexicographically element-wise. `cmp*` return an
`Ordering`; the `*Le` relations (`cmp ≠ .gt`) are the total preorders the
various `sorted(...)` calls in the code order by. -/

def cmpInt (a b : Int) : Ordering :=
  if a < b then .lt else if b < a then .gt else .eq

def cmpChar (a b : Char) : Ordering :=
  if a.toNat < b.toNat then .lt else if b.toNat < a.toNat then .gt else .eq

def cmpProd {α β : Type} (f : α → α → Ordering) (g : β → β → Ordering)
    (p q : α × β) : Ordering :=
  match f p.1 q.1 with
  | .eq => g p.2 q.2
  | o => o

def cmpList {α : Type} (f : α → α → Ordering) : List α → List α → Ordering
  | [], [] => .eq
  | [], _ :: _ => .lt
  | _ :: _, [] => .gt
  | a :: as, b :: bs =>
    match f a b with
    | .eq => cmpList f as bs
    | o => o

/-- A three-way comparison that faithfully encodes a linear order. -/
structure LawfulCmp {α : Type} (c : α → α → Ordering) : Prop where
  eq_iff : ∀ a b, c a b = .eq ↔ a = b
  swap_eq : ∀ a b, (c a b).swap = c b a
  lt_trans : ∀ a b d, c a b = .lt → c b d = .lt → c a d = .lt

lemma LawfulCmp.gt_iff_lt {α : Type} {c : α → α → Ordering} (hc : LawfulCmp c)
    (a b : α) : c a b = .gt ↔ c b a = .lt := by
  constructor
  · intro h
    have := hc.swap_eq a b
    rw [h] at this
    exact this.symm
  · intro h
    have := hc.swap_eq b a
    rw [h] at this
    exact this.symm

lemma LawfulCmp.le_total {α : Type} {c : α → α → Ordering} (hc : LawfulCmp c)
    (a b : α) : c a b ≠ .gt ∨ c b a ≠ .gt := by
  cases h : c a b with
  | lt => exact Or.inl (by simp [h])
  | eq => exact Or.inl (by simp [h])
  | gt =>
    have := (hc.gt_iff_lt a b).1 h
    exact Or.inr (by simp [this])

lemma LawfulCmp.le_trans {α : Type} {c : α → α → Ordering} (hc : LawfulCmp c)
    (a b d : α) (h1 : c a b ≠ .gt) (h2 : c b d ≠ .gt) : c a d ≠ .gt := by
  cases hab : c a b with
  | gt => exact absurd hab h1
  | eq =>
    have := (hc.eq_iff a b).1 hab
    subst this
    exact h2
  | lt =>
    cases hbd : c b d with
    | gt => exact absurd hbd h2
    | eq =>
      have := (hc.eq_iff b d).1 hbd
      subst this
      simp [hab]
    | lt => simp [hc.lt_trans a b d hab hbd]

lemma LawfulCmp.le_antisymm {α : Type} {c : α → α → Ordering} (hc : LawfulCmp c)
    (a b : α) (h1 : c a b ≠ .gt) (h2 : c b a ≠ .gt) : a = b := by
  cases hab : c a b with
  | gt => exact absurd hab h1
  | eq => exact (hc.eq_iff a b).1 hab
  | lt => exact absurd ((hc.gt_iff_lt b a).2 hab) h2

lemma lawful_cmpInt : LawfulCmp cmpInt := by
  refine ⟨?_, ?_, ?_⟩
  · intro a b
    unfold cmpInt
    split <;> rename_i h1
    · constructor <;> intro h <;> [exact absurd h (by simp); omega]
    · split <;> rename_i h2
      · constructor <;> intro h <;> [exact absurd h (by simp); omega]
      · constructor <;> intro _ <;> [omega; rfl]
  · intro a b
    unfold cmpInt
    rcases lt_trichotomy a b with h | h | h
    · simp [h, not_lt.2 (le_of_lt h), Ordering.swap]
    · simp [h, lt_irrefl, Ordering.swap]
    · simp [h, not_lt.2 (le_of_lt h), Ordering.swap]
  · intro a b d h1 h2
    unfold cmpInt at *
    have hab : a < b := by
      by_contra hc
      rw [if_neg hc] at h1
      split at h1 <;> simp_all
    have hbd : b < d := by
      by_contra hc
      rw [if_neg hc] at h2
      split at h2 <;> simp_all
    rw [if_pos (by omega)]

lemma lawful_cmpChar : LawfulCmp cmpChar := by
  refine ⟨?_, ?_, ?_⟩
  · intro a b
    unfold cmpChar
    have hinj : a.toNat = b.toNat → a = b := by
      intro h
      have : a.val = b.val := by
        apply UInt32.ext
        simpa [UInt32.toNat] using h
      exact Char.ext this
    split <;> rename_i h1
    · constructor <;> intro h
      · exact absurd h (by simp)
      · subst h; omega
    · split <;> rename_i h2
      · constructor <;> intro h
        · exact absurd h (by simp)
        · subst h; omega
      · constructor <;> intro _
        · exact hinj (by omega)
        · rfl
  · intro a b
    unfold cmpChar
    rcases lt_trichotomy a.toNat b.toNat with h | h | h
    · simp [h, not_lt.2 (le_of_lt h), Ordering.swap]
    · simp [h, lt_irrefl, Ordering.swap]
    · simp [h, not_lt.2 (le_of_lt h), Ordering.swap]
  · intro a b d h1 h2
    unfold cmpChar at *
    have hab : a.toNat < b.toNat := by
      by_contra hc
      rw [if_neg hc] at h1
      split at h1 <;> simp_all
    have hbd : b.toNat < d.toNat := by
      by_contra hc
      rw [if_neg hc] at h2
      split at h2 <;> simp_all
    rw [if_pos (by omega)]

lemma lawful_cmpProd {α β : Type} {f : α → α → Ordering} {g : β → β → Ordering}
    (hf : LawfulCmp f) (hg : LawfulCmp g) : LawfulCmp (cmpProd f g) := by
  refine ⟨?_, ?_, ?_⟩
  · intro p q
    unfold cmpProd
    cases h : f p.1 q.1 with
    | eq =>
      have h1 := (hf.eq_iff p.1 q.1).1 h
      constructor
      · intro h2
        have := (hg.eq_iff p.2 q.2).1 h2
        exact Prod.ext h1 this
      · intro h2
        exact (hg.eq_iff p.2 q.2).2 (congrArg Prod.snd h2)
    | lt =>
      constructor
      · intro h2; exact absurd h2 (by simp)
      · intro h2
        rw [(hf.eq_iff p.1 q.1).2 (congrArg Prod.fst h2)] at h
        exact absurd h (by simp)
    | gt =>
      constructor
      · intro h2; exact absurd h2 (by simp)
      · intro h2
        rw [(hf.eq_iff p.1 q.1).2 (congrArg Prod.fst h2)] at h
        exact absurd h (by simp)
  · intro p q
    unfold cmpProd
    cases h : f p.1 q.1 with
    | eq =>
      rw [(hf.eq_iff p.1 q.1).1 h]
      rw [show f q.1 q.1 = .eq from (hf.eq_iff q.1 q.1).2 rfl]
      exact hg.swap_eq p.2 q.2
    | lt =>
      rw [show f q.1 p.1 = .gt from by
        have := hf.swap_eq p.1 q.1
        rw [h] at this
        exact this.symm]
      rfl
    | gt =>
      rw [show f q.1 p.1 = .lt from by
        have := hf.swap_eq p.1 q.1
        rw [h] at this
        exact this.symm]
      rfl
  · intro p q r h1 h2
    unfold cmpProd at *
    cases hpq : f p.1 q.1 with
    | gt => rw [hpq] at h1; exact absurd h1 (by simp)
    | eq =>
      have h1' : g p.2 q.2 = .lt := by rw [hpq] at h1; exact h1
      have heq := (hf.eq_iff p.1 q.1).1 hpq
      cases hqr : f q.1 r.1 with
      | gt => rw [hqr] at h2; exact absurd h2 (by simp)
      | lt => simp [heq, hqr]
      | eq =>
        have h2' : g q.2 r.2 = .lt := by rw [hqr] at h2; exact h2
        simp [heq, hqr]
        exact hg.lt_trans p.2 q.2 r.2 h1' h2'
    | lt =>
      cases hqr : f q.1 r.1 with
      | gt => rw [hqr] at h2; exact absurd h2 (by simp)
      | lt => simp [hf.lt_trans p.1 q.1 r.1 hpq hqr]
      | eq =>
        have heq := (hf.eq_iff q.1 r.1).1 hqr
        simp [← heq, hpq]

lemma lawful_cmpList {α : Type} {f : α → α → Ordering} (hf : LawfulCmp f) :
    LawfulCmp (cmpList f) := by
  refine ⟨?_, ?_, ?_⟩
  · intro s
    induction s with
    | nil =>
      intro t
      cases t <;> simp [cmpList]
    | cons a as ih =>
      intro t
      cases t with
      | nil => simp [cmpList]
      | cons b bs =>
        show (match f a b with
          | .eq => cmpList f as bs
          | o => o) = .eq ↔ _
        cases h : f a b with
        | eq =>
          have := (hf.eq_iff a b).1 h
          subst this
          simp [ih bs]
        | lt =>
          simp only []
          constructor
          · intro h2; exact absurd h2 (by simp)
          · intro h2
            have : a = b := (List.cons.injEq _ _ _ _ ▸ h2).1
            rw [(hf.eq_iff a b).2 this] at h
            exact absurd h (by simp)
        | gt =>
          simp only []
          constructor
          · intro h2; exact absurd h2 (by simp)
          · intro h2
            have : a = b := (List.cons.injEq _ _ _ _ ▸ h2).1
            rw [(hf.eq_iff a b).2 this] at h
            exact absurd h (by simp)
  · intro s
    induction s with
    | nil =>
      intro t
      cases t <;> simp [cmpList, Ordering.swap]
    | cons a as ih =>
      intro t
      cases t with
      | nil => simp [cmpList, Ordering.swap]
      | cons b bs =>
        show (Ordering.swap (match f a b with
          | .eq => cmpList f as bs
          | o => o)) = (match f b a with
          | .eq => cmpList f bs as
          | o => o)
        cases h : f a b with
        | eq =>
          rw [show f b a = .eq from by
            have := hf.swap_eq a b
            rw [h] at this
            exact this.symm]
          exact ih bs
        | lt =>
          rw [show f b a = .gt from by
            have := hf.swap_eq a b
            rw [h] at this
            exact this.symm]
          rfl
        | gt =>
          rw [show f b a = .lt from by
            have := hf.swap_eq a b
            rw [h] at this
            exact this.symm]
          rfl
  · intro s
    induction s with
    | nil =>
      intro t u h1 h2
      cases t with
      | nil => exact h2
      | cons b bs =>
        cases u with
        | nil => exact absurd h2 (by simp [cmpList])
        | cons c cs => simp [cmpList]
    | cons a as ih =>
      intro t u h1 h2
      cases t with
      | nil => exact absurd h1 (by simp [cmpList])
      | cons b bs =>
        cases u with
        | nil => exact absurd h2 (by simp [cmpList])
        | cons c cs =>
          show (match f a c with
            | .eq => cmpList f as cs
            | o => o) = .lt
          have h1' : (match f a b with
            | .eq => cmpList f as bs
            | o => o) = .lt := h1
          have h2' : (match f b c with
            | .eq => cmpList f bs cs
            | o => o) = .lt := h2
          cases hab : f a b with
          | gt => rw [hab] at h1'; exact absurd h1' (by simp)
          | eq =>
            have := (hf.eq_iff a b).1 hab
            subst this
            cases hbc : f a c with
            | gt => rw [hbc] at h2'; exact absurd h2' (by simp)
            | lt => simp [hbc]
            | eq =>
              have h1'' : cmpList f as bs = .lt := by rw [hab] at h1'; exact h1'
              have h2'' : cmpList f bs cs = .lt := by rw [hbc] at h2'; exact h2'
              simp [hbc]
              exact ih bs cs h1'' h2''
          | lt =>
            cases hbc : f b c with
            | gt => rw [hbc] at h2'; exact absurd h2' (by simp)
            | lt => simp [hf.lt_trans a b c hab hbc]
            | eq =>
              have := (hf.eq_iff b c).1 hbc
              simp [← this, hab]

/-- Comparison of `(start, end)` pairs: Python tuple comparison. -/
def pairCmp : Int × Int → Int × Int → Ordering := cmpProd cmpInt cmpInt

/-- Comparison of Python strings (code-point lexicographic). -/
def strCmp (s t : String) : Ordering := cmpList cmpChar s.data t.data

/-- The grouping key of `migrate`: `(family, tuple(ranges))`. -/
abbrev GroupKey : Type := String × List (Int × Int)

/-- Comparison of `(family, unicode_ranges)` sort keys: Python tuple
comparison, strings then list-of-pairs lexicographically. -/
def keyCmp (a b : GroupKey) : Ordering :=
  match strCmp a.1 b.1 with
  | .eq => cmpList pairCmp a.2 b.2
  | o => o

lemma lawful_pairCmp : LawfulCmp pairCmp := lawful_cmpProd lawful_cmpInt lawful_cmpInt

lemma lawful_strCmp : LawfulCmp strCmp := by
  have h := lawful_cmpList lawful_cmpChar
  refine ⟨?_, ?_, ?_⟩
  · intro a b
    unfold strCmp
    rw [h.eq_iff a.data b.data]
    constructor
    · intro hd
      cases a; cases b
      exact congrArg String.mk hd
    · intro hd; rw [hd]
  · intro a b
    exact h.swap_eq a.data b.data
  · intro a b d
    exact h.lt_trans a.data b.data d.data

lemma lawful_keyCmp : LawfulCmp keyCmp := by
  have h := lawful_cmpProd lawful_strCmp (lawful_cmpList lawful_pairCmp)
  refine ⟨?_, ?_, ?_⟩
  · intro a b; exact h.eq_iff a b
  · intro a b; exact h.swap_eq a b
  · intro a b d; exact h.lt_trans a b d

/-- The order `_normalize_entry` sorts range pairs by:
`sorted(..., key=lambda r: (r[0], r[1]))`. -/
def pairLe (p q : Int × Int) : Prop := pairCmp p q ≠ .gt

/-- The order file paths are sorted by: Python string `<=`. -/
def fileLe (s t : String) : Prop := strCmp s t ≠ .gt

/-- The order catalog entries are sorted by:
`key=lambda e: (e["family"], e["unicode_ranges"])`. -/
def keyLe (a b : GroupKey) : Prop := keyCmp a b ≠ .gt

instance : DecidableRel pairLe := fun p q =>
  inferInstanceAs (Decidable (pairCmp p q ≠ .gt))
instance : DecidableRel fileLe := fun s t =>
  inferInstanceAs (Decidable (strCmp s t ≠ .gt))
instance : DecidableRel keyLe := fun a b =>
  inferInstanceAs (Decidable (keyCmp a b ≠ .gt))

instance : IsTotal (Int × Int) pairLe := ⟨lawful_pairCmp.le_total⟩
instance : IsTrans (Int × Int) pairLe := ⟨lawful_pairCmp.le_trans⟩
instance : IsTotal String fileLe := ⟨lawful_strCmp.le_total⟩
instance : IsTrans String fileLe := ⟨lawful_strCmp.le_trans⟩
instance : IsTotal GroupKey keyLe := ⟨lawful_keyCmp.le_total⟩
instance : IsTrans GroupKey keyLe := ⟨lawful_keyCmp.le_trans⟩

/-- Left-to-right effectful map over `Except`, modelling how a Python
generator raises on the first failing element. -/
def mapExcept {α β ε : Type} (f : α → Except ε β) : List α → Except ε (List β)
  | [] => .ok []
  | x :: xs =>
    match f x with
    | .error e => .error e
    | .ok y =>
      match mapExcept f xs with
      | .error e => .error e
      | .ok ys => .ok (y :: ys)

/-- One entry of the legacy fonts.yaml: a `family`, an optional singular
`file` key, an optional `files` list and the raw `unicode_ranges` values. -/
structure LegacyEntry where
  family : String
  file : Option String
  files : List String
  unicode_ranges : List PyVal

/-- Embeds `_normalize_entry` from migrate_fonts_yaml.py: the `file` key is
appended when truthy (present and non-empty), then `files`; ranges are
parsed and sorted ascending by `(start, end)`. -/
def _normalize_entry (e : LegacyEntry) :
    Except PyErr (String × List String × List (Int × Int)) :=
  let files :=
    (match e.file with
      | some f => if f = "" then [] else [f]
      | none => []) ++ e.files
  match mapExcept _parse_range e.unicode_ranges with
  | .error err => .error err
  | .ok ps => .ok (e.family, files, List.insertionSort pairLe ps)

lemma orientPair_fst_le_snd (a b : Int) :
    (orientPair a b).1 ≤ (orientPair a b).2 := by
  unfold orientPair
  split <;> simp <;> omega

lemma parse_range_fst_le_snd (item : PyVal) (p : Int × Int)
    (h : _parse_range item = .ok p) : p.1 ≤ p.2 := by
  cases item with
  | int n => simp [_parse_range] at h
  | other t r => simp [_parse_range] at h
  | str s =>
    rw [_parse_range] at h
    cases h1 : _parse_codepoint (.str (String.mk
        (if containsDD s.data then splitDD s.data
          else if '-' ∈ s.data then splitDash s.data
          else (s.data, s.data)).1)) with
    | error e => rw [h1] at h; simp at h
    | ok a =>
      rw [h1] at h
      cases h2 : _parse_codepoint (.str (String.mk
          (if containsDD s.data then splitDD s.data
            else if '-' ∈ s.data then splitDash s.data
            else (s.data, s.data)).2)) with
      | error e => rw [h2] at h; simp at h
      | ok b =>
        rw [h2] at h
        simp at h
        rw [← h]
        exact orientPair_fst_le_snd a b
  | list xs =>
    rcases xs with _ | ⟨v, _ | ⟨vb, _ | ⟨vc, rest⟩⟩⟩
    · simp [_parse_range] at h
    · rw [_parse_range] at h
      cases h1 : _parse_codepoint v with
      | error e => rw [h1] at h; simp at h
      | ok a =>
        rw [h1] at h
        simp at h
        rw [← h]
        exact orientPair_fst_le_snd a a
    · rw [_parse_range] at h
      cases h1 : _parse_codepoint v with
      | error e => rw [h1] at h; simp at h
      | ok a =>
        rw [h1] at h
        cases h2 : _parse_codepoint vb with
        | error e => rw [h2] at h; simp at h
        | ok b =>
          rw [h2] at h
          simp at h
          rw [← h]
          exact orientPair_fst_le_snd a b
    · simp [_parse_range] at h

lemma dropWhile_space_eq_self (l : List Char) (h : ∀ c ∈ l, isPySpace c = false) :
    l.dropWhile isPySpace = l := by
  cases l with
  | nil => rfl
  | cons c cs =>
    rw [List.dropWhile_cons]
    simp [h c (List.mem_cons_self c cs)]

lemma pyStrip_eq_self (l : List Char) (h : ∀ c ∈ l, isPySpace c = false) :
    pyStrip l = l := by
  unfold pyStrip
  rw [dropWhile_space_eq_self l h]
  rw [dropWhile_space_eq_self l.reverse (fun c hc => h c (List.mem_reverse.1 hc))]
  exact List.reverse_reverse l

lemma isHexDigitChar_ranges (c : Char) :
    isHexDigitChar c = true ↔
      (48 ≤ c.toNat ∧ c.toNat ≤ 57) ∨ (97 ≤ c.toNat ∧ c.toNat ≤ 102) ∨
        (65 ≤ c.toNat ∧ c.toNat ≤ 70) := by
  unfold isHexDigitChar hexDigitVal
  split <;> rename_i h1
  · simp
    omega
  · split <;> rename_i h2
    · simp
      omega
    · split <;> rename_i h3
      · simp
        omega
      · simp
        omega

lemma hex_not_space (c : Char) (h : isHexDigitChar c = true) :
    isPySpace c = false := by
  have hr := (isHexDigitChar_ranges c).1 h
  simp [isPySpace]
  omega

lemma hex_ne_special (c : Char) (h : isHexDigitChar c = true) :
    c ≠ '.' ∧ c ≠ 'U' ∧ c ≠ 'u' ∧ c ≠ '+' ∧ c ≠ '-' ∧ c ≠ 'x' ∧ c ≠ 'X' := by
  have hr := (isHexDigitChar_ranges c).1 h
  refine ⟨?_, ?_, ?_, ?_, ?_, ?_, ?_⟩ <;> intro he <;> subst he <;> revert hr <;>
    decide

lemma replaceDD_eq_self (l : List Char) (h : ∀ c ∈ l, c ≠ '.') :
    replaceDD l = l := by
  induction l with
  | nil => rfl
  | cons c cs ih =>
    cases cs with
    | nil => rfl
    | cons c2 cs2 =>
      rw [replaceDD]
      rw [if_neg (by
        intro hc
        exact h c (List.mem_cons_self _ _) hc.1)]
      rw [ih (fun x hx => h x (List.mem_cons_of_mem c hx))]

lemma hexNatAux_all (ds : List Char) (h : ∀ c ∈ ds, isHexDigitChar c = true) :
    ∀ acc, hexNatAux acc ds =
      some (ds.foldl (fun a c => 16 * a + (hexDigitVal c).getD 0) acc) := by
  induction ds with
  | nil => intro acc; rfl
  | cons c cs ih =>
    intro acc
    have hc : isHexDigitChar c = true := h c (List.mem_cons_self _ _)
    obtain ⟨d, hd⟩ := Option.isSome_iff_exists.1 hc
    rw [hexNatAux, hd]
    show hexNatAux (16 * acc + d) cs = _
    rw [ih (fun x hx => h x (List.mem_cons_of_mem c hx))]
    simp [List.foldl_cons, hd]

/-- Value of a string of hex digits read in base 16. -/
def hexValueOf (ds : List Char) : Nat :=
  ds.foldl (fun a c => 16 * a + (hexDigitVal c).getD 0) 0

lemma pySign_no_sign (c : Char) (r : List Char) (h1 : c ≠ '+') (h2 : c ≠ '-') :
    pySign (c :: r) = (1, c :: r) := by
  rw [pySign, if_neg (by rintro (h | h) <;> [exact h1 h; exact h2 h])]

lemma pyHexPrefixDrop_skip (l : List Char)
    (h : ∀ c0 cx r, l = c0 :: cx :: r → ¬(c0 = '0' ∧ (cx = 'x' ∨ cx = 'X'))) :
    pyHexPrefixDrop l = l := by
  cases l with
  | nil => rfl
  | cons c0 t =>
    cases t with
    | nil => rfl
    | cons cx r => rw [pyHexPrefixDrop, if_neg (h c0 cx r rfl)]

lemma pythonIntBase16_hex (ds : List Char) (hne : ds ≠ [])
    (h : ∀ c ∈ ds, isHexDigitChar c = true) :
    pythonIntBase16 ds = some ((hexValueOf ds : Nat) : Int) ∧
    pythonIntBase16 ('0' :: 'x' :: ds) = some ((hexValueOf ds : Nat) : Int) := by
  have hnospace : ∀ c ∈ ds, isPySpace c = false :=
    fun c hc => hex_not_space c (h c hc)
  have hval := hexNatAux_all ds h 0
  constructor
  · unfold pythonIntBase16
    rw [pyStrip_eq_self ds hnospace]
    cases ds with
    | nil => exact absurd rfl hne
    | cons c cs =>
      have hc := hex_ne_special c (h c (List.mem_cons_self _ _))
      rw [pySign_no_sign c cs hc.2.2.2.1 hc.2.2.2.2.1]
      rw [pyHexPrefixDrop_skip (c :: cs) (by
        intro c0 cx r heq hcond
        have hcx : cx ∈ c :: cs := by rw [heq]; simp
        have := hex_ne_special cx (h cx hcx)
        rcases hcond.2 with hx | hX
        · exact this.2.2.2.2.2.1 hx
        · exact this.2.2.2.2.2.2 hX)]
      rw [if_neg (by simp)]
      rw [hval]
      simp [hexValueOf]
  · unfold pythonIntBase16
    rw [pyStrip_eq_self ('0' :: 'x' :: ds) (by
      intro c hc
      rcases List.mem_cons.1 hc with h0 | hc2
      · subst h0; decide
      · rcases List.mem_cons.1 hc2 with h0 | hc3
        · subst h0; decide
        · exact hnospace c hc3)]
    rw [pySign_no_sign '0' ('x' :: ds) (by decide) (by decide)]
    rw [show pyHexPrefixDrop ('0' :: 'x' :: ds) = ds from by
      rw [pyHexPrefixDrop, if_pos (by simp)]]
    rw [if_neg hne]
    rw [hval]
    simp [hexValueOf]

lemma hasUPrefix_hex (ds : List Char) (h : ∀ c ∈ ds, isHexDigitChar c = true) :
    hasUPrefix ds = false := by
  cases ds with
  | nil => rfl
  | cons c1 t =>
    cases t with
    | nil => rfl
    | cons c2 r =>
      have h1 := hex_ne_special c1 (h c1 (by simp))
      simp only [hasUPrefix, Bool.and_eq_false_iff, Bool.or_eq_false_iff]
      left
      constructor <;> simp [h1.2.1, h1.2.2.1]

lemma replaceDD_hex (ds : List Char) (h : ∀ c ∈ ds, isHexDigitChar c = true) :
    replaceDD ds = ds :=
  replaceDD_eq_self ds (fun c hc => (hex_ne_special c (h c hc)).1)

lemma parse_codepoint_hex (ds : List Char) (hne : ds ≠ [])
    (h : ∀ c ∈ ds, isHexDigitChar c = true) :
    _parse_codepoint (.str (String.mk ds)) = .ok ((hexValueOf ds : Nat) : Int) ∧
    _parse_codepoint (.str (String.mk ('0' :: 'x' :: ds))) =
      .ok ((hexValueOf ds : Nat) : Int) ∧
    _parse_codepoint (.str (String.mk ('U' :: '+' :: ds))) =
      .ok ((hexValueOf ds : Nat) : Int) ∧
    _parse_codepoint (.str (String.mk ('u' :: '+' :: ds))) =
      .ok ((hexValueOf ds : Nat) : Int) := by
  have hnospace : ∀ c ∈ ds, isPySpace c = false :=
    fun c hc => hex_not_space c (h c hc)
  have hdsstrip : pyStrip ds = ds := pyStrip_eq_self ds hnospace
  have h0x : ∀ c ∈ '0' :: 'x' :: ds, isPySpace c = false := by
    intro c hc
    rcases List.mem_cons.1 hc with h0 | hc2
    · subst h0; decide
    · rcases List.mem_cons.1 hc2 with h0 | hc3
      · subst h0; decide
      · exact hnospace c hc3
  have hparse := pythonIntBase16_hex ds hne h
  refine ⟨?_, ?_, ?_, ?_⟩
  · simp only [_parse_codepoint]
    rw [show pyStrip (String.mk ds).data = ds from hdsstrip]
    rw [hasUPrefix_hex ds h]
    simp only [Bool.false_eq_true, if_false]
    rw [replaceDD_hex ds h, hparse.1]
  · simp only [_parse_codepoint]
    rw [pyStrip_eq_self _ h0x]
    rw [show hasUPrefix ('0' :: 'x' :: ds) = false from rfl]
    simp only [Bool.false_eq_true, if_false]
    rw [show replaceDD ('0' :: 'x' :: ds) = '0' :: 'x' :: ds from
      replaceDD_eq_self _ (by
        intro c hc
        rcases List.mem_cons.1 hc with h0 | hc2
        · subst h0; decide
        · rcases List.mem_cons.1 hc2 with h0 | hc3
          · subst h0; decide
          · exact (hex_ne_special c (h c hc3)).1)]
    rw [hparse.2]
  · simp only [_parse_codepoint]
    rw [pyStrip_eq_self _ (by
      intro c hc
      rcases List.mem_cons.1 hc with h0 | hc2
      · subst h0; decide
      · rcases List.mem_cons.1 hc2 with h0 | hc3
        · subst h0; decide
        · exact hnospace c hc3)]
    rw [show hasUPrefix ('U' :: '+' :: ds) = true from by simp [hasUPrefix]]
    simp only [if_true]
    rw [show List.drop 2 ('U' :: '+' :: ds) = ds from rfl]
    rw [replaceDD_hex ds h, hparse.1]
  · simp only [_parse_codepoint]
    rw [pyStrip_eq_self _ (by
      intro c hc
      rcases List.mem_cons.1 hc with h0 | hc2
      · subst h0; decide
      · rcases List.mem_cons.1 hc2 with h0 | hc3
        · subst h0; decide
        · exact hnospace c hc3)]
    rw [show hasUPrefix ('u' :: '+' :: ds) = true from by simp [hasUPrefix]]
    simp only [if_true]
    rw [show List.drop 2 ('u' :: '+' :: ds) = ds from rfl]
    rw [replaceDD_hex ds h, hparse.1]

lemma pairLe_iff (p q : Int × Int) :
    pairLe p q ↔ p.1 < q.1 ∨ (p.1 = q.1 ∧ p.2 ≤ q.2) := by
  unfold pairLe pairCmp cmpProd cmpInt
  rcases lt_trichotomy p.1 q.1 with h | h | h
  · simp [h]
  · rcases lt_trichotomy p.2 q.2 with h2 | h2 | h2 <;>
      simp [h, h2, lt_irrefl] <;> omega
  · simp [h, not_lt.2 (le_of_lt h)]
    omega

/-- C5: the three legacy encodings of the range A-Z parse identically, and
in general a hex-digit token parses the same with or without a
case-insensitive `U+` prefix, and is read base-16 with or without a `0x`
prefix. -/
theorem C5_legacy_parsing_equivalence :
    _parse_range (.str "U+0041-U+005A") = .ok (0x41, 0x5A) ∧
    _parse_range (.str "41..5A") = .ok (0x41, 0x5A) ∧
    _parse_range (.list [.int 0x41, .int 0x5A]) = .ok (0x41, 0x5A) ∧
    (∀ ds : List Char, ds ≠ [] → (∀ c ∈ ds, isHexDigitChar c = true) →
      _parse_codepoint (.str (String.mk ('U' :: '+' :: ds))) =
          _parse_codepoint (.str (String.mk ds)) ∧
        _parse_codepoint (.str (String.mk ('u' :: '+' :: ds))) =
          _parse_codepoint (.str (String.mk ds)) ∧
        _parse_codepoint (.str (String.mk ('0' :: 'x' :: ds))) =
          .ok ((hexValueOf ds : Nat) : Int) ∧
        _parse_codepoint (.str (String.mk ds)) =
          .ok ((hexValueOf ds : Nat) : Int)) := by
  refine ⟨rfl, rfl, rfl, ?_⟩
  intro ds hne h
  obtain ⟨h1, h2, h3, h4⟩ := parse_codepoint_hex ds hne h
  exact ⟨by rw [h3, h1], by rw [h4, h1], h2, h1⟩

theorem C5_legacy_parsing_equivalence_witness :
    (['0', '0', '4', '1'] ≠ ([] : List Char)) ∧
    (∀ c ∈ ['0', '0', '4', '1'], isHexDigitChar c = true) ∧
    (_parse_codepoint (.str (String.mk ('U' :: '+' :: ['0', '0', '4', '1']))) =
        _parse_codepoint (.str (String.mk ['0', '0', '4', '1'])) ∧
      _parse_codepoint (.str (String.mk ('u' :: '+' :: ['0', '0', '4', '1']))) =
        _parse_codepoint (.str (String.mk ['0', '0', '4', '1'])) ∧
      _parse_codepoint (.str (String.mk ('0' :: 'x' :: ['0', '0', '4', '1']))) =
        .ok ((hexValueOf ['0', '0', '4', '1'] : Nat) : Int) ∧
      _parse_codepoint (.str (String.mk ['0', '0', '4', '1'])) =
        .ok ((hexValueOf ['0', '0', '4', '1'] : Nat) : Int)) :=
  ⟨by decide, by decide,
    C5_legacy_parsing_equivalence.2.2.2 ['0', '0', '4', '1'] (by decide) (by decide)⟩

/-- C6 counterexample: a bare integer is NOT a recognized shape for
`_parse_range` — it raises `TypeError` instead of returning `(65, 65)`. -/
theorem C6_counterexample_int_shape_rejected :
    _parse_range (.int 65) =
      .error (.typeError "Unsupported range type: <class 'int'>") := rfl

/-- C6 (amended): `_parse_range` accepts strings and one- or two-element
lists/tuples, but not bare integers; every pair it returns satisfies
`start ≤ end` (a two-element list given with `a > b` is reordered), and
`_normalize_entry` sorts the entry's pairs ascending by `(start, end)`
without merging adjacent or overlapping pairs — inputs normalizing to
`(0, 5)` and `(3, 9)` remain two separate pairs. -/
theorem C6_range_pair_invariants :
    (∀ item p, _parse_range item = .ok p → p.1 ≤ p.2) ∧
    (∀ a b : Int, _parse_range (.list [.int a, .int b]) =
      .ok (if a ≤ b then (a, b) else (b, a))) ∧
    (∀ e fam fs rs, _normalize_entry e = .ok (fam, fs, rs) →
      List.Pairwise (fun a b : Int × Int =>
        a.1 < b.1 ∨ (a.1 = b.1 ∧ a.2 ≤ b.2)) rs) ∧
    _normalize_entry ⟨"X", none, [],
        [.list [.int 0, .int 5], .list [.int 3, .int 9]]⟩ =
      .ok ("X", [], [(0, 5), (3, 9)]) := by
  refine ⟨parse_range_fst_le_snd, fun a b => rfl, ?_, rfl⟩
  intro e fam fs rs h
  rw [_normalize_entry] at h
  cases hm : mapExcept _parse_range e.unicode_ranges with
  | error err => rw [hm] at h; simp at h
  | ok ps =>
    rw [hm] at h
    simp only [Except.ok.injEq] at h
    have hrs : rs = List.insertionSort pairLe ps := by
      have := congrArg (fun t => t.2.2) h
      exact this.symm
    rw [hrs]
    have hs := List.sorted_insertionSort pairLe ps
    exact hs.imp (fun hab => (pairLe_iff _ _).1 hab)

theorem C6_range_pair_invariants_witness :
    _parse_range (.str "5A..41") = .ok (65, 90) ∧
    ((65 : Int), (90 : Int)).1 ≤ ((65 : Int), (90 : Int)).2 ∧
    _normalize_entry ⟨"Y", none, [],
        [.list [.int 3, .int 9], .list [.int 0, .int 5]]⟩ =
      .ok ("Y", [], [(0, 5), (3, 9)]) ∧
    List.Pairwise (fun a b : Int × Int =>
        a.1 < b.1 ∨ (a.1 = b.1 ∧ a.2 ≤ b.2))
      [((0 : Int), (5 : Int)), (3, 9)] :=
  ⟨rfl, C6_range_pair_invariants.1 (.str "5A..41") (65, 90) rfl, rfl,
    C6_range_pair_invariants.2.2.1
      ⟨"Y", none, [], [.list [.int 3, .int 9], .list [.int 0, .int 5]]⟩
      "Y" [] [(0, 5), (3, 9)] rfl⟩

/-- C7 counterexample: for the dict value `{"bad": 1}` the raised error's
message names only the offending value's type (`<class 'dict'>`), not the
offending value itself — its repr does not occur in the message. -/
theorem C7_counterexample_message_omits_value :
    _parse_range (.other "dict" "\x7b'bad': 1\x7d") =
      .error (.typeError "Unsupported range type: <class 'dict'>") ∧
    ¬ ("\x7b'bad': 1\x7d".data <:+:
        "Unsupported range type: <class 'dict'>".data) :=
  ⟨rfl, by decide⟩

/-- C7 (amended): every unrecognized shape fails with an error rather than
returning a pair: a list/tuple of length other than 1 or 2 raises
`ValueError` with a message identifying the offending value, and a value
that is neither string, int, list nor tuple raises `TypeError` with a
message identifying the offending value's type. -/
theorem C7_unrecognized_shape_errors :
    (∀ xs : List PyVal, xs.length ≠ 1 → xs.length ≠ 2 →
      _parse_range (.list xs) = .error (.valueError
        ("Range list must have 1 or 2 elements, got " ++ pyRepr (.list xs)))) ∧
    (∀ ty re, _parse_range (.other ty re) =
      .error (.typeError ("Unsupported range type: <class '" ++ ty ++ "'>"))) := by
  constructor
  · intro xs h1 h2
    rcases xs with _ | ⟨v, _ | ⟨vb, _ | ⟨vc, rest⟩⟩⟩
    · rfl
    · exact absurd rfl h1
    · exact absurd rfl h2
    · rfl
  · intro ty re
    rfl

theorem C7_unrecognized_shape_errors_witness :
    ([] : List PyVal).length ≠ 1 ∧ ([] : List PyVal).length ≠ 2 ∧
    _parse_range (.list []) = .error (.valueError
      "Range list must have 1 or 2 elements, got []") := by
  refine ⟨by decide, by decide, ?_⟩
  have h := C7_unrecognized_shape_errors.1 [] (by decide) (by decide)
  rw [h]
  have : pyRepr (.list []) = "[]" := by
    rw [pyRepr]
    rfl
  rw [this]
  rfl

/-! ## Catalog grouping (`migrate` in migrate_fonts_yaml.py; the grouping
loop in `main` of fetch_noto_fonts.py has the same structure with
singleton file lists). -/

/-- A normalized entry `(family, files, ranges)` as produced by
`_normalize_entry`. -/
abbrev NormEntry : Type := String × List String × List (Int × Int)

/-- The composite grouping key `(family, tuple(ranges))`. -/
def normKey (n : NormEntry) : GroupKey := (n.1, n.2.2)

def normFiles (n : NormEntry) : List String := n.2.1

/-- One output catalog entry. `HexInt` bounds are modelled as the plain
integers they wrap (they compare equal to them; hex rendering is a
serialization concern). -/
structure CatalogEntry where
  family : String
  files : List String
  unicode_ranges : List (Int × Int)
deriving DecidableEq, Repr

def entryKey (ent : CatalogEntry) : GroupKey := (ent.family, ent.unicode_ranges)

/-- One iteration of the grouping loop: `grouped.setdefault(key, ...)` then
`bucket["files"].extend(files)`, on an insertion-ordered association list
(the model of a Python dict). -/
def groupStep (acc : List (GroupKey × List String)) (n : NormEntry) :
    List (GroupKey × List String) :=
  if normKey n ∈ acc.map Prod.fst then
    acc.map (fun kv =>
      if kv.1 = normKey n then (kv.1, kv.2 ++ normFiles n) else kv)
  else acc ++ [(normKey n, normFiles n)]

/-- The grouping loop over all normalized entries. -/
def groupFold : List (GroupKey × List String) → List NormEntry →
    List (GroupKey × List String)
  | acc, [] => acc
  | acc, n :: rest => groupFold (groupStep acc n) rest

/-- `sorted(dict.fromkeys(files))`. -/
def sortDedup (l : List String) : List String :=
  List.insertionSort fileLe (pyDedup l)

/-- Building one result dict from a finished bucket. -/
def mkEntry (kv : GroupKey × List String) : CatalogEntry :=
  ⟨kv.1.1, sortDedup kv.2, kv.1.2⟩

/-- `result.sort(key=lambda e: (e["family"], e["unicode_ranges"]))`. -/
def entryLe (a b : CatalogEntry) : Prop := keyLe (entryKey a) (entryKey b)

instance : DecidableRel entryLe := fun a b =>
  inferInstanceAs (Decidable (keyLe (entryKey a) (entryKey b)))
instance : IsTotal CatalogEntry entryLe :=
  ⟨fun a b => lawful_keyCmp.le_total (entryKey a) (entryKey b)⟩
instance : IsTrans CatalogEntry entryLe :=
  ⟨fun a b c => lawful_keyCmp.le_trans (entryKey a) (entryKey b) (entryKey c)⟩

/-- Embeds `migrate` from migrate_fonts_yaml.py: normalize every entry,
group by `(family, tuple(ranges))` in an insertion-ordered map extending
each bucket's files, then emit one entry per bucket with de-duplicated
sorted files and sort the result by `(family, unicode_ranges)`. -/
def migrate (entries : List LegacyEntry) : Except PyErr (List CatalogEntry) :=
  match mapExcept _normalize_entry entries with
  | .error e => .error e
  | .ok ns =>
    .ok (List.insertionSort entryLe ((groupFold [] ns).map mkEntry))

/-- All files contributed by normalized entries whose key is `k`, in input
order. -/
def filesOf (ns : List NormEntry) (k : GroupKey) : List String :=
  (ns.filter (fun n => normKey n = k)).flatMap normFiles

/-- The entry the catalog must contain for key `k`. -/
def specEntry (ns : List NormEntry) (k : GroupKey) : CatalogEntry :=
  ⟨k.1, sortDedup (filesOf ns k), k.2⟩

/-- Declarative form of `migrate`'s output: one entry per distinct key, in
sorted key order. -/
def specOutput (ns : List NormEntry) : List CatalogEntry :=
  (List.insertionSort keyLe (pyDedup (ns.map normKey))).map (specEntry ns)

lemma filesOf_cons (n : NormEntry) (rest : List NormEntry) (k : GroupKey) :
    filesOf (n :: rest) k =
      (if normKey n = k then normFiles n else []) ++ filesOf rest k := by
  unfold filesOf
  rw [List.filter_cons]
  by_cases h : normKey n = k
  · simp [h]
  · simp [h]

lemma mem_filesOf (ns : List NormEntry) (k : GroupKey) (p : String) :
    p ∈ filesOf ns k ↔ ∃ n ∈ ns, normKey n = k ∧ p ∈ normFiles n := by
  unfold filesOf
  rw [List.mem_flatMap]
  constructor
  · rintro ⟨n, hn, hp⟩
    have := List.mem_filter.1 hn
    exact ⟨n, this.1, by simpa using this.2, hp⟩
  · rintro ⟨n, hn, hk, hp⟩
    exact ⟨n, List.mem_filter.2 ⟨hn, by simpa using hk⟩, hp⟩

lemma groupStep_keys (acc : List (GroupKey × List String)) (n : NormEntry) :
    (groupStep acc n).map Prod.fst =
      if normKey n ∈ acc.map Prod.fst then acc.map Prod.fst
      else acc.map Prod.fst ++ [normKey n] := by
  unfold groupStep
  by_cases h : normKey n ∈ acc.map Prod.fst
  · rw [if_pos h, if_pos h, List.map_map]
    refine List.map_congr_left ?_
    intro kv _
    by_cases hk : kv.1 = normKey n <;> simp [hk]
  · rw [if_neg h, if_neg h]
    simp

lemma groupStep_keys_nodup (acc : List (GroupKey × List String)) (n : NormEntry)
    (h : (acc.map Prod.fst).Nodup) : ((groupStep acc n).map Prod.fst).Nodup := by
  rw [groupStep_keys]
  by_cases hm : normKey n ∈ acc.map Prod.fst
  · rwa [if_pos hm]
  · rw [if_neg hm]
    simp [List.nodup_append, h, hm]

lemma groupFold_char (ns : List NormEntry) :
    ∀ acc : List (GroupKey × List String), (acc.map Prod.fst).Nodup →
      ((groupFold acc ns).map Prod.fst).Nodup ∧
      (∀ k, k ∈ (groupFold acc ns).map Prod.fst ↔
        k ∈ acc.map Prod.fst ∨ k ∈ ns.map normKey) ∧
      (∀ p ∈ groupFold acc ns,
        (∃ fs0, (p.1, fs0) ∈ acc ∧ p.2 = fs0 ++ filesOf ns p.1) ∨
        (p.1 ∉ acc.map Prod.fst ∧ p.2 = filesOf ns p.1)) := by
  induction ns with
  | nil =>
    intro acc hacc
    refine ⟨hacc, by simp [groupFold], ?_⟩
    intro p hp
    left
    refine ⟨p.2, ?_, by simp [filesOf]⟩
    simpa using hp
  | cons n rest ih =>
    intro acc hacc
    have hstep : groupFold acc (n :: rest) = groupFold (groupStep acc n) rest := rfl
    have hacc' := groupStep_keys_nodup acc n hacc
    obtain ⟨ihn, ihm, ihe⟩ := ih (groupStep acc n) hacc'
    rw [hstep]
    refine ⟨ihn, ?_, ?_⟩
    · intro k
      rw [ihm k, groupStep_keys]
      by_cases hm : normKey n ∈ acc.map Prod.fst
      · rw [if_pos hm]
        simp only [List.map_cons, List.mem_cons]
        constructor
        · rintro (h | h)
          · exact Or.inl h
          · exact Or.inr (Or.inr h)
        · rintro (h | h | h)
          · exact Or.inl h
          · exact Or.inl (by rw [h]; exact hm)
          · exact Or.inr h
      · rw [if_neg hm]
        simp only [List.mem_append, List.mem_singleton, List.map_cons,
          List.mem_cons]
        tauto
    · intro p hp
      rcases ihe p hp with ⟨fs0, hmem, heq⟩ | ⟨hnot, heq⟩
      · -- p's bucket existed already after processing n
        unfold groupStep at hmem
        by_cases hm : normKey n ∈ acc.map Prod.fst
        · rw [if_pos hm] at hmem
          obtain ⟨kv, hkv, hkveq⟩ := List.mem_map.1 hmem
          by_cases hk : kv.1 = normKey n
          · rw [if_pos hk] at hkveq
            have h1a : (kv.1, kv.2 ++ normFiles n).1 = (p.1, fs0).1 :=
              congrArg Prod.fst hkveq
            have h2a : (kv.1, kv.2 ++ normFiles n).2 = (p.1, fs0).2 :=
              congrArg Prod.snd hkveq
            have h1 : kv.1 = p.1 := h1a
            have h2 : kv.2 ++ normFiles n = fs0 := h2a
            left
            refine ⟨kv.2, ?_, ?_⟩
            · rw [← h1, Prod.mk.eta]
              exact hkv
            · rw [heq, ← h2, filesOf_cons, ← h1, hk, if_pos rfl]
              simp [List.append_assoc]
          · rw [if_neg hk] at hkveq
            have h1a : kv.1 = (p.1, fs0).1 := congrArg Prod.fst hkveq
            have h1 : kv.1 = p.1 := h1a
            left
            refine ⟨fs0, ?_, ?_⟩
            · rw [← hkveq]
              exact hkv
            · rw [heq, filesOf_cons, ← h1,
                if_neg (fun hc => hk hc.symm)]
              simp
        · rw [if_neg hm] at hmem
          rcases List.mem_append.1 hmem with hin | hone
          · have hne : p.1 ≠ normKey n := by
              intro hc
              apply hm
              rw [← hc]
              exact List.mem_map.2 ⟨(p.1, fs0), hin, rfl⟩
            left
            refine ⟨fs0, hin, ?_⟩
            rw [heq, filesOf_cons, if_neg (fun hc => hne hc.symm)]
            simp
          · have hsing := List.mem_singleton.1 hone
            have h1 : p.1 = normKey n ∧ fs0 = normFiles n := by
              have ha : (p.1, fs0).1 = (normKey n, normFiles n).1 :=
                congrArg Prod.fst hsing
              have hb : (p.1, fs0).2 = (normKey n, normFiles n).2 :=
                congrArg Prod.snd hsing
              exact ⟨ha, hb⟩
            right
            refine ⟨h1.1 ▸ hm, ?_⟩
            rw [heq, filesOf_cons, h1.1, if_pos rfl, h1.2]
      · -- p's key was first seen strictly after n
        have hnotin : p.1 ∉ (groupStep acc n).map Prod.fst := hnot
        rw [groupStep_keys] at hnotin
        by_cases hm : normKey n ∈ acc.map Prod.fst
        · rw [if_pos hm] at hnotin
          have hne : p.1 ≠ normKey n := fun hc => hnotin (hc ▸ hm)
          right
          refine ⟨hnotin, ?_⟩
          rw [heq, filesOf_cons, if_neg (fun hc => hne hc.symm)]
          simp
        · rw [if_neg hm] at hnotin
          have hne : p.1 ≠ normKey n := by
            intro hc
            exact hnotin (List.mem_append.2 (Or.inr (by simp [hc])))
          right
          refine ⟨fun hc => hnotin (List.mem_append.2 (Or.inl hc)), ?_⟩
          rw [heq, filesOf_cons, if_neg (fun hc => hne hc.symm)]
          simp

lemma entryKey_specEntry (ns : List NormEntry) (k : GroupKey) :
    entryKey (specEntry ns k) = k := Prod.mk.eta

/-- The imperative grouping loop plus final sort computes exactly the
declarative `specOutput`. -/
lemma migrate_core_eq (ns : List NormEntry) :
    List.insertionSort entryLe ((groupFold [] ns).map mkEntry) =
      specOutput ns := by
  obtain ⟨hnodup, hmem, helem⟩ := groupFold_char ns [] (by simp)
  have hfiles : ∀ p ∈ groupFold [] ns, p.2 = filesOf ns p.1 := by
    intro p hp
    rcases helem p hp with ⟨fs0, hmem0, _⟩ | ⟨_, heq⟩
    · exact absurd hmem0 (List.not_mem_nil _)
    · exact heq
  have hmape : (groupFold [] ns).map mkEntry =
      ((groupFold [] ns).map Prod.fst).map (specEntry ns) := by
    rw [List.map_map]
    refine List.map_congr_left ?_
    intro p hp
    show mkEntry p = specEntry ns p.1
    unfold mkEntry specEntry
    rw [hfiles p hp]
  have hksperm : ((groupFold [] ns).map Prod.fst).Perm
      (pyDedup (ns.map normKey)) := by
    rw [List.perm_ext_iff_of_nodup hnodup (nodup_pyDedup _)]
    intro k
    rw [mem_pyDedup]
    simpa using hmem k
  have hLperm : (List.insertionSort entryLe ((groupFold [] ns).map mkEntry)).Perm
      ((pyDedup (ns.map normKey)).map (specEntry ns)) := by
    refine (List.perm_insertionSort entryLe _).trans ?_
    rw [hmape]
    exact hksperm.map (specEntry ns)
  have hRperm : (specOutput ns).Perm
      ((pyDedup (ns.map normKey)).map (specEntry ns)) :=
    (List.perm_insertionSort keyLe _).map (specEntry ns)
  have hsortL : List.Pairwise entryLe
      (List.insertionSort entryLe ((groupFold [] ns).map mkEntry)) :=
    List.sorted_insertionSort entryLe _
  have hsortR : List.Pairwise entryLe (specOutput ns) := by
    unfold specOutput
    rw [List.pairwise_map]
    refine (List.sorted_insertionSort keyLe _).imp ?_
    intro a b hab
    unfold entryLe
    rw [entryKey_specEntry, entryKey_specEntry]
    exact hab
  refine @List.Perm.eq_of_sorted CatalogEntry entryLe _ _ ?_ hsortL hsortR
    (hLperm.trans hRperm.symm)
  intro a b ha hb hab hba
  obtain ⟨ka, _, hka⟩ := List.mem_map.1 (hLperm.mem_iff.1 ha)
  obtain ⟨kb, _, hkb⟩ := List.mem_map.1 (hRperm.mem_iff.1 hb)
  have hkab : keyLe ka kb := by
    have := hab
    unfold entryLe at this
    rwa [← hka, ← hkb, entryKey_specEntry, entryKey_specEntry] at this
  have hkba : keyLe kb ka := by
    have := hba
    unfold entryLe at this
    rwa [← hka, ← hkb, entryKey_specEntry, entryKey_specEntry] at this
  have : ka = kb := lawful_keyCmp.le_antisymm ka kb hkab hkba
  rw [← hka, ← hkb, this]

lemma mapExcept_cons {α β ε : Type} (f : α → Except ε β) (x : α) (xs : List α)
    (y : β) (ys : List β) (hx : f x = .ok y) (hxs : mapExcept f xs = .ok ys) :
    mapExcept f (x :: xs) = .ok (y :: ys) := by
  rw [mapExcept, hx, hxs]

lemma mapExcept_ok_cons {α β ε : Type} {f : α → Except ε β} {x : α}
    {xs : List α} {ys : List β} (h : mapExcept f (x :: xs) = .ok ys) :
    ∃ y ys', f x = .ok y ∧ mapExcept f xs = .ok ys' ∧ ys = y :: ys' := by
  rw [mapExcept] at h
  cases hx : f x with
  | error e => rw [hx] at h; simp at h
  | ok y =>
    rw [hx] at h
    cases hxs : mapExcept f xs with
    | error e => rw [hxs] at h; simp at h
    | ok ys' =>
      rw [hxs] at h
      simp only [Except.ok.injEq] at h
      exact ⟨y, ys', rfl, rfl, h.symm⟩

lemma mapExcept_mem_right {α β ε : Type} {f : α → Except ε β} :
    ∀ {l : List α} {ys : List β}, mapExcept f l = .ok ys →
      ∀ y ∈ ys, ∃ x ∈ l, f x = .ok y := by
  intro l
  induction l with
  | nil =>
    intro ys h y hy
    rw [mapExcept] at h
    simp only [Except.ok.injEq] at h
    rw [← h] at hy
    cases hy
  | cons x xs ih =>
    intro ys h y hy
    obtain ⟨y0, ys', hx, hxs, hcons⟩ := mapExcept_ok_cons h
    subst hcons
    rcases List.mem_cons.1 hy with h0 | h0
    · exact ⟨x, List.mem_cons_self _ _, h0 ▸ hx⟩
    · obtain ⟨x', hx', hfx'⟩ := ih hxs y h0
      exact ⟨x', List.mem_cons_of_mem x hx', hfx'⟩

lemma mapExcept_mem_left {α β ε : Type} {f : α → Except ε β} :
    ∀ {l : List α} {ys : List β}, mapExcept f l = .ok ys →
      ∀ x ∈ l, ∃ y ∈ ys, f x = .ok y := by
  intro l
  induction l with
  | nil => intro ys _ x hx; cases hx
  | cons x0 xs ih =>
    intro ys h x hx
    obtain ⟨y0, ys', hx0, hxs, hcons⟩ := mapExcept_ok_cons h
    subst hcons
    rcases List.mem_cons.1 hx with h0 | h0
    · exact ⟨y0, List.mem_cons_self _ _, h0 ▸ hx0⟩
    · obtain ⟨y, hy, hfy⟩ := ih hxs x h0
      exact ⟨y, List.mem_cons_of_mem y0 hy, hfy⟩

lemma mapExcept_perm {α β ε : Type} {f : α → Except ε β} :
    ∀ {l l' : List α}, l.Perm l' → ∀ {ys : List β}, mapExcept f l = .ok ys →
      ∃ ys', mapExcept f l' = .ok ys' ∧ ys.Perm ys' := by
  intro l l' hp
  induction hp with
  | nil =>
    intro ys h
    exact ⟨ys, h, List.Perm.refl ys⟩
  | cons x hp ih =>
    intro ys h
    obtain ⟨y, ys0, hx, hxs, hcons⟩ := mapExcept_ok_cons h
    subst hcons
    obtain ⟨ys', hmap, hperm⟩ := ih hxs
    exact ⟨y :: ys', mapExcept_cons f x _ y ys' hx hmap,
      List.Perm.cons y hperm⟩
  | swap a b l =>
    intro ys h
    obtain ⟨yb, ys0, hb, hrest, hcons⟩ := mapExcept_ok_cons h
    subst hcons
    obtain ⟨ya, ys1, ha, hrest2, hcons2⟩ := mapExcept_ok_cons hrest
    subst hcons2
    refine ⟨ya :: yb :: ys1, ?_, List.Perm.swap ya yb ys1⟩
    exact mapExcept_cons f a _ ya _ ha (mapExcept_cons f b _ yb _ hb hrest2)
  | trans hp1 hp2 ih1 ih2 =>
    intro ys h
    obtain ⟨ys1, h1, hperm1⟩ := ih1 h
    obtain ⟨ys2, h2, hperm2⟩ := ih2 h1
    exact ⟨ys2, h2, hperm1.trans hperm2⟩

lemma mapExcept_map_ok {α β γ ε : Type} (f : α → Except ε β) (g : γ → α)
    (m : γ → β) :
    ∀ (l : List γ), (∀ x ∈ l, f (g x) = .ok (m x)) →
      mapExcept f (l.map g) = .ok (l.map m) := by
  intro l
  induction l with
  | nil => intro _; rfl
  | cons x xs ih =>
    intro h
    rw [List.map_cons, List.map_cons]
    exact mapExcept_cons f (g x) _ (m x) _ (h x (List.mem_cons_self _ _))
      (ih (fun x' hx' => h x' (List.mem_cons_of_mem x hx')))

lemma migrate_ok_elim {E : List LegacyEntry} {C : List CatalogEntry}
    (h : migrate E = .ok C) :
    ∃ ns, mapExcept _normalize_entry E = .ok ns ∧ C = specOutput ns := by
  rw [migrate] at h
  cases hm : mapExcept _normalize_entry E with
  | error e => rw [hm] at h; simp at h
  | ok ns =>
    rw [hm] at h
    simp only [Except.ok.injEq] at h
    exact ⟨ns, rfl, by rw [← h, migrate_core_eq]⟩

lemma migrate_ok_intro {E : List LegacyEntry} {ns : List NormEntry}
    (h : mapExcept _normalize_entry E = .ok ns) :
    migrate E = .ok (specOutput ns) := by
  rw [migrate, h]
  show Except.ok (List.insertionSort entryLe ((groupFold [] ns).map mkEntry)) =
    Except.ok (specOutput ns)
  rw [migrate_core_eq]

lemma fileLe_antisymm (a b : String) (h1 : fileLe a b) (h2 : fileLe b a) :
    a = b := lawful_strCmp.le_antisymm a b h1 h2

lemma keyLe_antisymm (a b : GroupKey) (h1 : keyLe a b) (h2 : keyLe b a) :
    a = b := lawful_keyCmp.le_antisymm a b h1 h2

lemma sortDedup_congr (l l' : List String) (h : ∀ a, a ∈ l ↔ a ∈ l') :
    sortDedup l = sortDedup l' := by
  have hperm : (pyDedup l).Perm (pyDedup l') := by
    rw [List.perm_ext_iff_of_nodup (nodup_pyDedup l) (nodup_pyDedup l')]
    intro a
    rw [mem_pyDedup, mem_pyDedup]
    exact h a
  refine @List.Perm.eq_of_sorted String fileLe _ _
    (fun a b _ _ => fileLe_antisymm a b)
    (List.sorted_insertionSort fileLe _) (List.sorted_insertionSort fileLe _)
    ?_
  exact ((List.perm_insertionSort fileLe _).trans hperm).trans
    (List.perm_insertionSort fileLe _).symm

lemma sortedKeys_congr (l l' : List GroupKey) (h : ∀ a, a ∈ l ↔ a ∈ l') :
    List.insertionSort keyLe (pyDedup l) =
      List.insertionSort keyLe (pyDedup l') := by
  have hperm : (pyDedup l).Perm (pyDedup l') := by
    rw [List.perm_ext_iff_of_nodup (nodup_pyDedup l) (nodup_pyDedup l')]
    intro a
    rw [mem_pyDedup, mem_pyDedup]
    exact h a
  refine @List.Perm.eq_of_sorted GroupKey keyLe _ _
    (fun a b _ _ => keyLe_antisymm a b)
    (List.sorted_insertionSort keyLe _) (List.sorted_insertionSort keyLe _)
    ?_
  exact ((List.perm_insertionSort keyLe _).trans hperm).trans
    (List.perm_insertionSort keyLe _).symm

lemma specOutput_congr {ns ns' : List NormEntry} (hp : ns.Perm ns') :
    specOutput ns = specOutput ns' := by
  unfold specOutput
  have hkeys : List.insertionSort keyLe (pyDedup (ns.map normKey)) =
      List.insertionSort keyLe (pyDedup (ns'.map normKey)) := by
    refine sortedKeys_congr _ _ ?_
    intro k
    exact (hp.map normKey).mem_iff
  rw [hkeys]
  refine List.map_congr_left ?_
  intro k _
  unfold specEntry
  have : sortDedup (filesOf ns k) = sortDedup (filesOf ns' k) := by
    refine sortDedup_congr _ _ ?_
    intro p
    rw [mem_filesOf, mem_filesOf]
    constructor
    · rintro ⟨n, hn, hk, hp'⟩
      exact ⟨n, hp.mem_iff.1 hn, hk, hp'⟩
    · rintro ⟨n, hn, hk, hp'⟩
      exact ⟨n, hp.mem_iff.2 hn, hk, hp'⟩
  rw [this]

lemma specOutput_sorted (ns : List NormEntry) :
    (specOutput ns).Pairwise entryLe := by
  unfold specOutput
  rw [List.pairwise_map]
  refine (List.sorted_insertionSort keyLe _).imp ?_
  intro a b hab
  unfold entryLe
  rw [entryKey_specEntry, entryKey_specEntry]
  exact hab

lemma specOutput_keys (ns : List NormEntry) :
    (specOutput ns).map entryKey =
      List.insertionSort keyLe (pyDedup (ns.map normKey)) := by
  unfold specOutput
  rw [List.map_map]
  have : (entryKey ∘ specEntry ns) =
      (fun k : GroupKey => k) := by
    funext k
    exact entryKey_specEntry ns k
  rw [this]
  simp

lemma specOutput_keys_nodup (ns : List NormEntry) :
    ((specOutput ns).map entryKey).Nodup := by
  rw [specOutput_keys]
  exact (List.perm_insertionSort keyLe _).symm.nodup (nodup_pyDedup _)

lemma mem_specOutput {ns : List NormEntry} {ent : CatalogEntry} :
    ent ∈ specOutput ns ↔
      ∃ k, k ∈ ns.map normKey ∧ ent = specEntry ns k := by
  unfold specOutput
  rw [List.mem_map]
  constructor
  · rintro ⟨k, hk, hent⟩
    refine ⟨k, ?_, hent.symm⟩
    have := (List.perm_insertionSort keyLe _).mem_iff.1 hk
    rwa [mem_pyDedup] at this
  · rintro ⟨k, hk, hent⟩
    refine ⟨k, ?_, hent.symm⟩
    rw [(List.perm_insertionSort keyLe _).mem_iff, mem_pyDedup]
    exact hk

/-- C2: `migrate` merges exactly the entries sharing an identical
`(family, range-sequence)` key: each output entry's files are the union of
its key's constituents' files, de-duplicated and sorted as strings; there
is exactly one output entry per distinct input key (entries with different
keys are never merged); and the output is sorted by
`(family, unicode_ranges)` compared lexicographically. -/
theorem C2_grouping_merges_by_key (E : List LegacyEntry)
    (ns : List NormEntry) (C : List CatalogEntry)
    (h1 : mapExcept _normalize_entry E = .ok ns) (h2 : migrate E = .ok C) :
    (∀ ent ∈ C, ent.files = sortDedup (filesOf ns (entryKey ent))) ∧
    (∀ k, (∃ ent ∈ C, entryKey ent = k) ↔ k ∈ ns.map normKey) ∧
    (C.map entryKey).Nodup ∧
    C.Pairwise entryLe := by
  obtain ⟨ns', h1', hC⟩ := migrate_ok_elim h2
  rw [h1] at h1'
  have hns : ns' = ns := by
    simpa using h1'.symm
  rw [hns] at hC
  subst hC
  refine ⟨?_, ?_, specOutput_keys_nodup ns, specOutput_sorted ns⟩
  · intro ent hent
    obtain ⟨k, _, hk⟩ := mem_specOutput.1 hent
    subst hk
    rw [entryKey_specEntry]
    rfl
  · intro k
    constructor
    · rintro ⟨ent, hent, hk⟩
      obtain ⟨k', hk', hent'⟩ := mem_specOutput.1 hent
      subst hent'
      rw [entryKey_specEntry] at hk
      rwa [hk] at hk'
    · intro hk
      exact ⟨specEntry ns k, mem_specOutput.2 ⟨k, hk, rfl⟩,
        entryKey_specEntry ns k⟩

/-- C3: `migrate` is order-independent — permuting the input entries
yields the identical catalog, entry for entry. -/
theorem C3_migrate_order_independent (E E' : List LegacyEntry)
    (C : List CatalogEntry) (hperm : E.Perm E') (h : migrate E = .ok C) :
    migrate E' = .ok C := by
  obtain ⟨ns, h1, hC⟩ := migrate_ok_elim h
  obtain ⟨ns', h1', hnsperm⟩ := mapExcept_perm hperm h1
  rw [migrate_ok_intro h1', ← specOutput_congr hnsperm, ← hC]

theorem C2_grouping_merges_by_key_witness :
    mapExcept _normalize_entry
        [⟨"B", none, ["b1.ttf"], [.list [.int 1, .int 2]]⟩,
          ⟨"A", some "a.ttf", [], [.list [.int 1, .int 2]]⟩,
          ⟨"B", none, ["b0.ttf"], [.list [.int 1, .int 2]]⟩] =
      .ok [("B", ["b1.ttf"], [(1, 2)]), ("A", ["a.ttf"], [(1, 2)]),
        ("B", ["b0.ttf"], [(1, 2)])] ∧
    migrate
        [⟨"B", none, ["b1.ttf"], [.list [.int 1, .int 2]]⟩,
          ⟨"A", some "a.ttf", [], [.list [.int 1, .int 2]]⟩,
          ⟨"B", none, ["b0.ttf"], [.list [.int 1, .int 2]]⟩] =
      .ok [⟨"A", ["a.ttf"], [(1, 2)]⟩, ⟨"B", ["b0.ttf", "b1.ttf"], [(1, 2)]⟩] ∧
    ((∀ ent ∈ [CatalogEntry.mk "A" ["a.ttf"] [(1, 2)],
        CatalogEntry.mk "B" ["b0.ttf", "b1.ttf"] [(1, 2)]],
      ent.files = sortDedup (filesOf
        [("B", ["b1.ttf"], [(1, 2)]), ("A", ["a.ttf"], [(1, 2)]),
          ("B", ["b0.ttf"], [(1, 2)])] (entryKey ent))) ∧
    (∀ k, (∃ ent ∈ [CatalogEntry.mk "A" ["a.ttf"] [(1, 2)],
        CatalogEntry.mk "B" ["b0.ttf", "b1.ttf"] [(1, 2)]], entryKey ent = k) ↔
      k ∈ ([("B", ["b1.ttf"], [(1, 2)]), ("A", ["a.ttf"], [(1, 2)]),
        ("B", ["b0.ttf"], [(1, 2)])] : List NormEntry).map normKey) ∧
    (([CatalogEntry.mk "A" ["a.ttf"] [(1, 2)],
        CatalogEntry.mk "B" ["b0.ttf", "b1.ttf"] [(1, 2)]].map entryKey).Nodup) ∧
    ([CatalogEntry.mk "A" ["a.ttf"] [(1, 2)],
        CatalogEntry.mk "B" ["b0.ttf", "b1.ttf"] [(1, 2)]].Pairwise entryLe)) :=
  ⟨rfl, rfl,
    C2_grouping_merges_by_key
      [⟨"B", none, ["b1.ttf"], [.list [.int 1, .int 2]]⟩,
        ⟨"A", some "a.ttf", [], [.list [.int 1, .int 2]]⟩,
        ⟨"B", none, ["b0.ttf"], [.list [.int 1, .int 2]]⟩]
      [("B", ["b1.ttf"], [(1, 2)]), ("A", ["a.ttf"], [(1, 2)]),
        ("B", ["b0.ttf"], [(1, 2)])]
      [⟨"A", ["a.ttf"], [(1, 2)]⟩, ⟨"B", ["b0.ttf", "b1.ttf"], [(1, 2)]⟩]
      rfl rfl⟩

theorem C3_migrate_order_independent_witness :
    ([⟨"B", none, ["b1.ttf"], [.list [.int 1, .int 2]]⟩,
        ⟨"A", some "a.ttf", [], [.list [.int 1, .int 2]]⟩] :
      List LegacyEntry).Perm
      [⟨"A", some "a.ttf", [], [.list [.int 1, .int 2]]⟩,
        ⟨"B", none, ["b1.ttf"], [.list [.int 1, .int 2]]⟩] ∧
    migrate
        [⟨"B", none, ["b1.ttf"], [.list [.int 1, .int 2]]⟩,
          ⟨"A", some "a.ttf", [], [.list [.int 1, .int 2]]⟩] =
      .ok [⟨"A", ["a.ttf"], [(1, 2)]⟩, ⟨"B", ["b1.ttf"], [(1, 2)]⟩] ∧
    migrate
        [⟨"A", some "a.ttf", [], [.list [.int 1, .int 2]]⟩,
          ⟨"B", none, ["b1.ttf"], [.list [.int 1, .int 2]]⟩] =
      .ok [⟨"A", ["a.ttf"], [(1, 2)]⟩, ⟨"B", ["b1.ttf"], [(1, 2)]⟩] := by
  refine ⟨List.Perm.swap _ _ _, rfl, ?_⟩
  exact C3_migrate_order_independent _ _ _ (List.Perm.swap _ _ _) rfl

lemma filesOf_eq_nil {ns : List NormEntry} {k : GroupKey}
    (h : ∀ n ∈ ns, normKey n ≠ k) : filesOf ns k = [] := by
  unfold filesOf
  rw [List.filter_eq_nil_iff.2 (by
    intro n hn
    simpa using h n hn)]
  rfl

lemma sortDedup_eq_self {l : List String} (hs : List.Pairwise fileLe l)
    (hn : l.Nodup) : sortDedup l = l := by
  unfold sortDedup
  rw [pyDedup_eq_self l hn]
  exact List.Sorted.insertionSort_eq hs

lemma norm_ranges_invariants {e : LegacyEntry} {n : NormEntry}
    (h : _normalize_entry e = .ok n) :
    List.Pairwise pairLe n.2.2 ∧ ∀ r ∈ n.2.2, r.1 ≤ r.2 := by
  rw [_normalize_entry] at h
  cases hm : mapExcept _parse_range e.unicode_ranges with
  | error err => rw [hm] at h; simp at h
  | ok ps =>
    rw [hm] at h
    simp only [Except.ok.injEq] at h
    have hr : n.2.2 = List.insertionSort pairLe ps := by
      rw [← h]
    constructor
    · rw [hr]
      exact List.sorted_insertionSort pairLe ps
    · intro r hrm
      rw [hr] at hrm
      have hps : r ∈ ps := (List.perm_insertionSort pairLe ps).mem_iff.1 hrm
      obtain ⟨item, _, hitem⟩ := mapExcept_mem_right hm r hps
      exact parse_range_fst_le_snd item r hitem

lemma specOutput_entry_invariants {E : List LegacyEntry} {ns : List NormEntry}
    (h1 : mapExcept _normalize_entry E = .ok ns) :
    ∀ ent ∈ specOutput ns,
      List.Pairwise pairLe ent.unicode_ranges ∧
      (∀ r ∈ ent.unicode_ranges, r.1 ≤ r.2) ∧
      List.Pairwise fileLe ent.files ∧ ent.files.Nodup := by
  intro ent hent
  obtain ⟨k, hk, hke⟩ := mem_specOutput.1 hent
  obtain ⟨n, hn, hnk⟩ := List.mem_map.1 hk
  obtain ⟨e, _, he⟩ := mapExcept_mem_right h1 n hn
  obtain ⟨hsorted, hvalid⟩ := norm_ranges_invariants he
  subst hke
  subst hnk
  refine ⟨hsorted, hvalid, List.sorted_insertionSort fileLe _, ?_⟩
  exact (List.perm_insertionSort fileLe _).symm.nodup (nodup_pyDedup _)

/-- Feeding a catalog entry back to the migrator: the singular `file` key
is absent, `files` and the `(start, end)` integer pairs round-trip (YAML
re-reads each `HexInt`-rendered bound as the equal plain integer, and each
2-tuple as a 2-element list). -/
def catalogToLegacy (ent : CatalogEntry) : LegacyEntry :=
  ⟨ent.family, none, ent.files,
    ent.unicode_ranges.map (fun r => .list [.int r.1, .int r.2])⟩

def entToNorm (ent : CatalogEntry) : NormEntry :=
  (ent.family, ent.files, ent.unicode_ranges)

lemma normalize_catalogToLegacy {ent : CatalogEntry}
    (hs : List.Pairwise pairLe ent.unicode_ranges)
    (hr : ∀ r ∈ ent.unicode_ranges, r.1 ≤ r.2) :
    _normalize_entry (catalogToLegacy ent) = .ok (entToNorm ent) := by
  have hmap : mapExcept _parse_range
      (ent.unicode_ranges.map (fun r => PyVal.list [.int r.1, .int r.2])) =
      .ok (ent.unicode_ranges.map (fun r => r)) := by
    refine mapExcept_map_ok _ _ _ _ ?_
    intro r hrm
    show _parse_range (.list [.int r.1, .int r.2]) = .ok r
    show Except.ok (orientPair r.1 r.2) = .ok r
    rw [orientPair, if_pos (hr r hrm)]
  rw [_normalize_entry]
  show (match mapExcept _parse_range
      (ent.unicode_ranges.map (fun r => PyVal.list [.int r.1, .int r.2])) with
    | .error err => Except.error err
    | .ok ps => Except.ok (ent.family, [] ++ ent.files,
        List.insertionSort pairLe ps)) = .ok (entToNorm ent)
  rw [hmap]
  show Except.ok (ent.family, [] ++ ent.files,
      List.insertionSort pairLe (ent.unicode_ranges.map (fun r => r))) =
    .ok (entToNorm ent)
  rw [show ent.unicode_ranges.map (fun r => r) = ent.unicode_ranges from by
    simp]
  rw [List.Sorted.insertionSort_eq hs]
  rfl

lemma filesOf_map_entToNorm {C : List CatalogEntry}
    (hnodup : (C.map entryKey).Nodup) :
    ∀ ent ∈ C, filesOf (C.map entToNorm) (entryKey ent) = ent.files := by
  induction C with
  | nil => intro ent h; cases h
  | cons e0 Cr ih =>
    intro ent hent
    have hnd := List.nodup_cons.1
      (show (entryKey e0 :: Cr.map entryKey).Nodup from hnodup)
    rcases List.mem_cons.1 hent with h | h
    · subst h
      rw [List.map_cons, filesOf_cons]
      rw [show normKey (entToNorm ent) = entryKey ent from rfl, if_pos rfl]
      rw [filesOf_eq_nil (by
        intro n hn hk
        obtain ⟨e', he', hne'⟩ := List.mem_map.1 hn
        apply hnd.1
        have heq : entryKey e' = entryKey ent := by
          rw [← hk, ← hne']
          rfl
        exact List.mem_map.2 ⟨e', he', heq⟩)]
      show ent.files ++ [] = ent.files
      simp
    · rw [List.map_cons, filesOf_cons]
      rw [show normKey (entToNorm e0) = entryKey e0 from rfl]
      rw [if_neg (by
        intro hk
        apply hnd.1
        rw [hk]
        exact List.mem_map.2 ⟨ent, h, rfl⟩)]
      rw [List.nil_append]
      exact ih hnd.2 ent h

lemma specOutput_of_catalog {C : List CatalogEntry}
    (hkeys : (C.map entryKey).Nodup) (hsorted : C.Pairwise entryLe)
    (hfiles : ∀ ent ∈ C, sortDedup ent.files = ent.files) :
    specOutput (C.map entToNorm) = C := by
  unfold specOutput
  have hkeys_eq : (C.map entToNorm).map normKey = C.map entryKey := by
    rw [List.map_map]
    rfl
  rw [hkeys_eq, pyDedup_eq_self _ hkeys]
  have hsk : List.Pairwise keyLe (C.map entryKey) := by
    rw [List.pairwise_map]
    exact hsorted
  rw [List.Sorted.insertionSort_eq hsk]
  rw [List.map_map]
  have hpt : ∀ ent ∈ C,
      (specEntry (C.map entToNorm) ∘ entryKey) ent = ent := by
    intro ent hent
    show specEntry (C.map entToNorm) (entryKey ent) = ent
    unfold specEntry
    rw [filesOf_map_entToNorm hkeys ent hent, hfiles ent hent]
    rfl
  rw [List.map_congr_left hpt]
  simp

/-- C4: `migrate` is idempotent under re-migration — feeding its output
(with `HexInt` bounds read back as the equal plain integers and 2-tuples
read back as 2-element lists) through `migrate` again reproduces the
catalog unchanged. -/
theorem C4_migrate_idempotent (E : List LegacyEntry) (C : List CatalogEntry)
    (h : migrate E = .ok C) :
    migrate (C.map catalogToLegacy) = .ok C := by
  obtain ⟨ns, h1, hC⟩ := migrate_ok_elim h
  subst hC
  have hinv := specOutput_entry_invariants h1
  have hmapE : mapExcept _normalize_entry
      ((specOutput ns).map catalogToLegacy) =
      .ok ((specOutput ns).map entToNorm) := by
    refine mapExcept_map_ok _ _ _ _ ?_
    intro ent hent
    obtain ⟨hp, hr, _, _⟩ := hinv ent hent
    exact normalize_catalogToLegacy hp hr
  rw [migrate_ok_intro hmapE]
  congr 1
  refine specOutput_of_catalog (specOutput_keys_nodup ns)
    (specOutput_sorted ns) ?_
  intro ent hent
  obtain ⟨_, _, hfs, hfn⟩ := hinv ent hent
  exact sortDedup_eq_self hfs hfn

theorem C4_migrate_idempotent_witness :
    migrate
        [⟨"B", none, ["b.ttf"], [.str "41..5A"]⟩,
          ⟨"A", some "a.ttf", ["a.ttf", "a2.ttf"], [.list [.int 9, .int 2]]⟩] =
      .ok [⟨"A", ["a.ttf", "a2.ttf"], [(2, 9)]⟩, ⟨"B", ["b.ttf"], [(65, 90)]⟩] ∧
    migrate
        ([⟨"A", ["a.ttf", "a2.ttf"], [(2, 9)]⟩,
          ⟨"B", ["b.ttf"], [(65, 90)]⟩].map catalogToLegacy) =
      .ok [⟨"A", ["a.ttf", "a2.ttf"], [(2, 9)]⟩, ⟨"B", ["b.ttf"], [(65, 90)]⟩] :=
  ⟨rfl, C4_migrate_idempotent
    [⟨"B", none, ["b.ttf"], [.str "41..5A"]⟩,
      ⟨"A", some "a.ttf", ["a.ttf", "a2.ttf"], [.list [.int 9, .int 2]]⟩]
    [⟨"A", ["a.ttf", "a2.ttf"], [(2, 9)]⟩, ⟨"B", ["b.ttf"], [(65, 90)]⟩] rfl⟩

lemma mem_sortDedup (l : List String) (p : String) :
    p ∈ sortDedup l ↔ p ∈ l := by
  unfold sortDedup
  rw [(List.perm_insertionSort fileLe _).mem_iff, mem_pyDedup]

lemma norm_files_eq {e : LegacyEntry} {n : NormEntry}
    (h : _normalize_entry e = .ok n) :
    normFiles n = (match e.file with
      | some f => if f = "" then [] else [f]
      | none => []) ++ e.files := by
  rw [_normalize_entry] at h
  cases hm : mapExcept _parse_range e.unicode_ranges with
  | error err => rw [hm] at h; simp at h
  | ok ps =>
    rw [hm] at h
    simp only [Except.ok.injEq] at h
    rw [← h]
    rfl

lemma norm_files_mem {e : LegacyEntry} {n : NormEntry}
    (h : _normalize_entry e = .ok n) (p : String) :
    p ∈ normFiles n ↔
      (∃ f, e.file = some f ∧ f ≠ "" ∧ p = f) ∨ p ∈ e.files := by
  rw [norm_files_eq h, List.mem_append]
  cases hf : e.file with
  | none =>
    simp
  | some f =>
    by_cases hemp : f = ""
    · subst hemp
      simp
    · simp only [if_neg hemp, List.mem_singleton, Option.some.injEq]
      constructor
      · rintro (h0 | h0)
        · exact Or.inl ⟨f, rfl, hemp, h0⟩
        · exact Or.inr h0
      · rintro (⟨f', hf', hne, hp⟩ | h0)
        · subst hf'
          exact Or.inl hp
        · exact Or.inr h0

/-- C10: `migrate` neither loses nor invents file paths — assuming every
present singular `file` field is a non-empty string (the code's truthiness
test would drop an empty one), the set of paths across the output equals
the set of paths across the input's `file` and `files` fields. -/
theorem C10_migrate_preserves_files (E : List LegacyEntry)
    (ns : List NormEntry) (C : List CatalogEntry)
    (h1 : mapExcept _normalize_entry E = .ok ns) (h2 : migrate E = .ok C)
    (hfile : ∀ e ∈ E, ∀ f, e.file = some f → f ≠ "") :
    ∀ p, (∃ ent ∈ C, p ∈ ent.files) ↔
      (∃ e ∈ E, e.file = some p ∨ p ∈ e.files) := by
  obtain ⟨ns', h1', hC⟩ := migrate_ok_elim h2
  rw [h1] at h1'
  have hns : ns' = ns := by simpa using h1'.symm
  rw [hns] at hC
  subst hC
  intro p
  have hmid : (∃ ent ∈ specOutput ns, p ∈ ent.files) ↔
      ∃ n ∈ ns, p ∈ normFiles n := by
    constructor
    · rintro ⟨ent, hent, hp⟩
      obtain ⟨k, hk, hke⟩ := mem_specOutput.1 hent
      subst hke
      have : p ∈ filesOf ns k := (mem_sortDedup _ p).1 hp
      obtain ⟨n, hn, _, hpn⟩ := (mem_filesOf ns k p).1 this
      exact ⟨n, hn, hpn⟩
    · rintro ⟨n, hn, hp⟩
      refine ⟨specEntry ns (normKey n),
        mem_specOutput.2 ⟨normKey n, List.mem_map.2 ⟨n, hn, rfl⟩, rfl⟩, ?_⟩
      show p ∈ sortDedup (filesOf ns (normKey n))
      rw [mem_sortDedup, mem_filesOf]
      exact ⟨n, hn, rfl, hp⟩
  rw [hmid]
  constructor
  · rintro ⟨n, hn, hp⟩
    obtain ⟨e, he, hne⟩ := mapExcept_mem_right h1 n hn
    rcases (norm_files_mem hne p).1 hp with ⟨f, hf, _, hpf⟩ | h0
    · subst hpf
      exact ⟨e, he, Or.inl hf⟩
    · exact ⟨e, he, Or.inr h0⟩
  · rintro ⟨e, he, hp⟩
    obtain ⟨n, hn, hne⟩ := mapExcept_mem_left h1 e he
    refine ⟨n, hn, (norm_files_mem hne p).2 ?_⟩
    rcases hp with h0 | h0
    · exact Or.inl ⟨p, h0, hfile e he p h0, rfl⟩
    · exact Or.inr h0

theorem C10_migrate_preserves_files_witness :
    mapExcept _normalize_entry
        [⟨"A", some "a.ttf", ["c.ttf", "a.ttf"], [.list [.int 1]]⟩] =
      .ok [("A", ["a.ttf", "c.ttf", "a.ttf"], [(1, 1)])] ∧
    migrate [⟨"A", some "a.ttf", ["c.ttf", "a.ttf"], [.list [.int 1]]⟩] =
      .ok [⟨"A", ["a.ttf", "c.ttf"], [(1, 1)]⟩] ∧
    (∀ e ∈ [(⟨"A", some "a.ttf", ["c.ttf", "a.ttf"],
        [.list [.int 1]]⟩ : LegacyEntry)], ∀ f, e.file = some f → f ≠ "") ∧
    (∀ p, (∃ ent ∈ [CatalogEntry.mk "A" ["a.ttf", "c.ttf"] [(1, 1)]],
        p ∈ ent.files) ↔
      (∃ e ∈ [(⟨"A", some "a.ttf", ["c.ttf", "a.ttf"],
          [.list [.int 1]]⟩ : LegacyEntry)],
        e.file = some p ∨ p ∈ e.files)) := by
  have hfile : ∀ e ∈ [(⟨"A", some "a.ttf", ["c.ttf", "a.ttf"],
      [.list [.int 1]]⟩ : LegacyEntry)], ∀ f, e.file = some f → f ≠ "" := by
    intro e he f hf
    rcases List.mem_singleton.1 he with h
    subst h
    simp only [Option.some.injEq] at hf
    subst hf
    decide
  exact ⟨rfl, rfl, hfile,
    C10_migrate_preserves_files
      [⟨"A", some "a.ttf", ["c.ttf", "a.ttf"], [.list [.int 1]]⟩]
      [("A", ["a.ttf", "c.ttf", "a.ttf"], [(1, 1)])]
      [⟨"A", ["a.ttf", "c.ttf"], [(1, 1)]⟩] rfl rfl hfile⟩
